import Mathlib

/-!
Verification of the UrbanGenAI computational-geometry and spatial-algorithm
kernel against its specification.

Numeric model: Python floats are embedded as rationals (`ℚ`) wherever the
source only adds, multiplies, divides and compares them; values that the
source obtains from `math.sqrt` are embedded as real numbers (`Real.sqrt` of
a rational).  `float('inf')` / `float('-inf')` sentinels are embedded as
`WithTop` / `WithBot` elements.
-/

namespace UrbanGen

/-! ## Interval tree (planning_api/algorithms/mathematics.py)

`UInterval`, `IntervalNode` and the augmented search tree used by
`IntervalTree`.  The Python tree is a Red-Black tree whose nodes carry
colours used only by the insertion fixup; colours are never consulted by
`search_overlaps`, `find_one_overlap` or `_update_tree`, and the insertion
fixup only rotates subtrees (rotations preserve the in-order sequence of
nodes and the binary-search-tree order, as proved for `rotate_left` /
`rotate_right` below).  The embedding therefore models the node colour away
and models insertion as the binary-search-tree descent of `RBTree.insert`;
every search theorem below is proved for an arbitrary tree satisfying the
binary-search-tree order invariant, which covers every shape the Python
fixup can produce. -/

/-- Embedding of `UInterval`: an interval with `low`/`high` bounds.  The
Python constructor rejects `low > high`; the bound is irrelevant to the
theorems below, which hold for all pairs. -/
structure UInterval where
  low : ℚ
  high : ℚ
deriving DecidableEq, Repr

/-- Embedding of `UInterval.is_overlap`. -/
def UInterval.is_overlap (a b : UInterval) : Prop :=
  a.low ≤ b.high ∧ b.low ≤ a.high

instance (a b : UInterval) : Decidable (a.is_overlap b) :=
  inferInstanceAs (Decidable (_ ∧ _))

/-- Embedding of `IntervalNode`: an interval, an opaque integer id, and the
cached `max` field maintained by `IntervalTree._update_tree`. -/
structure INode where
  interval : UInterval
  id : ℤ
  max : ℚ
deriving DecidableEq, Repr

/-- Embedding of `IntervalNode.__init__`, which initialises `max` to
`interval.high`. -/
def INode.mkNode (i : UInterval) (nodeId : ℤ) : INode :=
  ⟨i, nodeId, i.high⟩

/-- Embedding of `IntervalNode.__lt__`: compare by `interval.low`, then by
`id`. -/
def INode.lt (a b : INode) : Prop :=
  a.interval.low < b.interval.low ∨
    (a.interval.low = b.interval.low ∧ a.id < b.id)

instance (a b : INode) : Decidable (a.lt b) :=
  inferInstanceAs (Decidable (_ ∨ _))

/-- Embedding of `IntervalNode.__eq__`: equality of the interval (both
bounds) and of the id. -/
def INode.eqv (a b : INode) : Prop :=
  a.interval = b.interval ∧ a.id = b.id

instance (a b : INode) : Decidable (a.eqv b) :=
  inferInstanceAs (Decidable (_ ∧ _))

/-- Shape of the search tree underlying `RBTree` (colours modelled away, see
the section comment). -/
inductive ITree where
  | nil : ITree
  | node (left : ITree) (value : INode) (right : ITree) : ITree
deriving DecidableEq, Repr

namespace ITree

/-- In-order sequence of the stored nodes (embedding of
`IntervalTree._inorder_traversal` / `get_all_intervals`). -/
def toList : ITree → List INode
  | nil => []
  | node l v r => toList l ++ v :: toList r

/-- Data of a node that the tree operations key on and return to callers:
the interval together with its id (the cached `max` field stripped). -/
def INodeData (x : INode) : UInterval × ℤ := (x.interval, x.id)

/-- Binary-search-tree order invariant maintained by `RBTree`: at every
node, all values in the left subtree are `__lt__`-smaller and all values in
the right subtree are `__lt__`-greater. -/
def Ordered : ITree → Prop
  | nil => True
  | node l v r =>
      (∀ x ∈ toList l, x.lt v) ∧ (∀ x ∈ toList r, v.lt x) ∧
        Ordered l ∧ Ordered r

instance instDecidableOrdered : (t : ITree) → Decidable (Ordered t)
  | nil => isTrue trivial
  | node l v r =>
      have : Decidable (Ordered l) := instDecidableOrdered l
      have : Decidable (Ordered r) := instDecidableOrdered r
      inferInstanceAs (Decidable (_ ∧ _ ∧ _ ∧ _))

/-- Greatest `interval.high` over a subtree, with `⊥` embedding the
`float('-inf')` returned by `_update_tree` on an empty child. -/
def highsMax : ITree → WithBot ℚ
  | nil => ⊥
  | node l v r =>
      max (highsMax l) (max (v.interval.high : WithBot ℚ) (highsMax r))

/-- The max-aggregate invariant of the augmented tree: every node caches in
`max` the greatest `interval.high` of its subtree. -/
def MaxOk : ITree → Prop
  | nil => True
  | node l v r =>
      (v.max : WithBot ℚ) = highsMax (node l v r) ∧ MaxOk l ∧ MaxOk r

instance instDecidableMaxOk : (t : ITree) → Decidable (MaxOk t)
  | nil => isTrue trivial
  | node l v r =>
      have : Decidable (MaxOk l) := instDecidableMaxOk l
      have : Decidable (MaxOk r) := instDecidableMaxOk r
      inferInstanceAs (Decidable (_ ∧ _ ∧ _))

/-- Subtree relation: `IsSubtree s t` holds when `s` occurs as a (not
necessarily proper) subtree of `t`.  Used to quantify over "every node in
the tree". -/
def IsSubtree (s : ITree) : ITree → Prop
  | nil => s = nil
  | node l v r => s = node l v r ∨ IsSubtree s l ∨ IsSubtree s r

instance instDecidableIsSubtree (s : ITree) : (t : ITree) → Decidable (IsSubtree s t)
  | nil => inferInstanceAs (Decidable (_ = _))
  | node l v r =>
      have : Decidable (IsSubtree s l) := instDecidableIsSubtree s l
      have : Decidable (IsSubtree s r) := instDecidableIsSubtree s r
      inferInstanceAs (Decidable (_ ∨ _ ∨ _))

/-- Embedding of the descent of `RBTree.insert` with
`allow_duplicates = False`: descend left on `value < current`, right on
`value > current`, and report failure (`none`) when neither holds, i.e. on
equal `(low, id)` keys.  The Python insertion fixup that follows only
recolours and rotates; it does not change the stored multiset nor the
binary-search-tree order (see `rotate_left_toList` and friends below). -/
def insertBST (v : INode) : ITree → Option ITree
  | nil => some (node nil v nil)
  | node l x r =>
      if v.lt x then (insertBST v l).map fun l' => node l' x r
      else if x.lt v then (insertBST v r).map fun r' => node l x r'
      else none

/-- Embedding of `RBTree._rotate_left` acting on the subtree rooted at the
rotated node (the parent rewiring of the Python code reattaches the result
in place). -/
def rotate_left : ITree → ITree
  | node l v (node rl rv rr) => node (node l v rl) rv rr
  | t => t

/-- Embedding of `RBTree._rotate_right`. -/
def rotate_right : ITree → ITree
  | node (node ll lv lr) v r => node ll lv (node lr v r)
  | t => t

/-- Embedding of `RBTree._find_node` reduced to a membership test: navigate
by `__lt__` and compare by `__eq__`. -/
def findBST (v : INode) : ITree → Bool
  | nil => false
  | node l x r =>
      if v.eqv x then true
      else if v.lt x then findBST v l
      else findBST v r

/-- Leftmost value of a subtree (embedding of `RBTree._find_min`). -/
def findMinV : ITree → Option INode
  | nil => none
  | node nil x _ => some x
  | node (node ll lv lr) _ _ => findMinV (node ll lv lr)

/-- Remove the leftmost node of a subtree; this is what
`RBTree._delete_node` does when it recursively deletes the in-order
successor (which never has a left child). -/
def removeMin : ITree → ITree
  | nil => nil
  | node nil _ r => r
  | node (node ll lv lr) x r => node (removeMin (node ll lv lr)) x r

/-- Embedding of `RBTree._delete_node` at the node found by `_find_node`:
leaf and single-child cases splice the child in; the two-children case
copies the in-order successor value into the node and deletes the
successor.  Navigation mirrors `_find_node` (`__eq__` to stop, `__lt__` to
choose a side). -/
def removeBST (v : INode) : ITree → ITree
  | nil => nil
  | node l x r =>
      if v.eqv x then
        match l, r with
        | nil, r => r
        | node ll lv lr, nil => node ll lv lr
        | node ll lv lr, node rl rv rr =>
            node (node ll lv lr)
              ((findMinV (node rl rv rr)).getD x)
              (removeMin (node rl rv rr))
      else if v.lt x then node (removeBST v l) x r
      else node l x (removeBST v r)

/-- Embedding of `IntervalTree._update_tree`: a full post-order pass that
recomputes every cached `max`; the returned second component is the
subtree maximum (`⊥` embeds the `float('-inf')` returned for an absent
child, and `WithBot.unbot' v.interval.high` embeds the
`left_max if left_max != float('-inf') else node.value.interval.high`
selection). -/
def update_tree : ITree → ITree × WithBot ℚ
  | nil => (nil, ⊥)
  | node l v r =>
      let lp := update_tree l
      let rp := update_tree r
      let cm : ℚ :=
        max v.interval.high
          (max (lp.2.unbot' v.interval.high) (rp.2.unbot' v.interval.high))
      (node lp.1 ⟨v.interval, v.id, cm⟩ rp.1, (cm : WithBot ℚ))

/-- Embedding of `IntervalTree.insert_node`: run the tree insertion; on
success recompute all `max` values from the root. -/
def insert_node (v : INode) (t : ITree) : Bool × ITree :=
  match insertBST v t with
  | none => (false, t)
  | some t' => (true, (update_tree t').1)

/-- Embedding of `IntervalTree.insert_interval`. -/
def insert_interval (i : UInterval) (nodeId : ℤ) (t : ITree) : Bool × ITree :=
  insert_node (INode.mkNode i nodeId) t

/-- Embedding of `IntervalTree.delete_node`: remove the node when present;
when the removal succeeded and the tree is still non-empty, recompute all
`max` values from the root. -/
def delete_node (v : INode) (t : ITree) : Bool × ITree :=
  if findBST v t then
    let t' := removeBST v t
    if t' = nil then (true, t') else (true, (update_tree t').1)
  else (false, t)

/-- Embedding of `IntervalTree.delete_interval`. -/
def delete_interval (i : UInterval) (nodeId : ℤ) (t : ITree) : Bool × ITree :=
  delete_node (INode.mkNode i nodeId) t

/-- Pruning guard of `_search_overlaps_recursive` for the left child:
`current_node.left is not None and current_node.left.value.max >=
target.interval.low`. -/
def leftGuard (target : INode) : ITree → Bool
  | nil => false
  | node _ lv _ => target.interval.low ≤ lv.max

/-- Pruning guard of `_search_overlaps_recursive` for the right child:
additionally requires `current_node.value.interval.low <=
target.interval.high`. -/
def rightGuard (target : INode) (v : INode) : ITree → Bool
  | nil => false
  | node _ rv _ =>
      target.interval.low ≤ rv.max ∧ v.interval.low ≤ target.interval.high

/-- Embedding of `IntervalTree._search_overlaps_recursive` (with the
`search_overlaps` empty-root guard subsumed by the `nil` case): record the
current node on overlap, then recurse into children whose guards hold. -/
def search_overlaps (target : INode) : ITree → List INode
  | nil => []
  | node l v r =>
      (if v.interval.is_overlap target.interval then [v] else []) ++
        ((if leftGuard target l then search_overlaps target l else []) ++
          (if rightGuard target v r then search_overlaps target r else []))

/-- Embedding of `IntervalTree.search_overlapping_interval`, which searches
with a temporary node of id `-1`. -/
def search_overlapping_interval (i : UInterval) (t : ITree) : List INode :=
  search_overlaps (INode.mkNode i (-1)) t

/-- Embedding of `IntervalTree.find_one_overlap`: the non-exhaustive
root-to-leaf descent. -/
def find_one_overlap (target : INode) : ITree → Option INode
  | nil => none
  | node l v r =>
      if v.interval.is_overlap target.interval then some v
      else
        match l with
        | nil => find_one_overlap target r
        | node ll lv lr =>
            if lv.max < target.interval.low then find_one_overlap target r
            else find_one_overlap target (node ll lv lr)

/-- Embedding of `IntervalTree.find_overlapping_interval`. -/
def find_overlapping_interval (i : UInterval) (t : ITree) : Option INode :=
  find_one_overlap (INode.mkNode i (-1)) t

/-- Building a tree through the `IntervalTree.insert_interval` entry point
from a list of `(interval, id)` pairs, in list order. -/
def build (pairs : List (UInterval × ℤ)) : ITree :=
  pairs.foldl (fun t p => (insert_interval p.1 p.2 t).2) nil

end ITree

end UrbanGen

namespace UrbanGen.ITree

/-! ### Order and key lemmas for `INode.lt` -/

/-- Key on which the tree orders nodes. -/
def INodeKey (x : INode) : ℚ × ℤ := (x.interval.low, x.id)

theorem lt_irrefl (a : INode) : ¬ a.lt a := by
  rintro (h | ⟨-, h⟩) <;> exact absurd h (by simp)

theorem lt_trans {a b c : INode} (hab : a.lt b) (hbc : b.lt c) : a.lt c := by
  rcases hab with h1 | ⟨h1, h1'⟩ <;> rcases hbc with h2 | ⟨h2, h2'⟩
  · exact Or.inl (h1.trans h2)
  · exact Or.inl (h2 ▸ h1)
  · exact Or.inl (h1 ▸ h2)
  · exact Or.inr ⟨h1.trans h2, h1'.trans h2'⟩

theorem lt_asymm {a b : INode} (hab : a.lt b) : ¬ b.lt a := fun hba =>
  lt_irrefl a (lt_trans hab hba)

theorem lt_ne {a b : INode} (hab : a.lt b) : a ≠ b := by
  rintro rfl; exact lt_irrefl a hab

/-- Trichotomy underlying the duplicate test of `RBTree.insert`: when
neither `value < current` nor `current < value`, the two nodes agree on
`(interval.low, id)`. -/
theorem key_eq_of_not_lt {a b : INode} (h1 : ¬ a.lt b) (h2 : ¬ b.lt a) :
    INodeKey a = INodeKey b := by
  unfold INode.lt at h1 h2
  push_neg at h1 h2
  have hlow : a.interval.low = b.interval.low := le_antisymm h2.1 h1.1
  have hid : a.id = b.id := le_antisymm (h2.2 hlow.symm) (h1.2 hlow)
  simp [INodeKey, hlow, hid]

theorem lt_congr_left {a a' b : INode} (h : INodeKey a = INodeKey a') :
    a.lt b ↔ a'.lt b := by
  have h1 : a.interval.low = a'.interval.low := congrArg Prod.fst h
  have h2 : a.id = a'.id := congrArg Prod.snd h
  unfold INode.lt
  rw [h1, h2]

theorem lt_congr_right {a b b' : INode} (h : INodeKey b = INodeKey b') :
    a.lt b ↔ a.lt b' := by
  have h1 : b.interval.low = b'.interval.low := congrArg Prod.fst h
  have h2 : b.id = b'.id := congrArg Prod.snd h
  unfold INode.lt
  rw [h1, h2]

theorem lt_low_le {a b : INode} (h : a.lt b) :
    a.interval.low ≤ b.interval.low := by
  rcases h with h | ⟨h, -⟩
  · exact h.le
  · exact h.le

/-- The key is a function of the node data (interval plus id). -/
theorem key_eq_of_data_eq {a b : INode} (h : INodeData a = INodeData b) :
    INodeKey a = INodeKey b := by
  have h1 : a.interval = b.interval := congrArg Prod.fst h
  have h2 : a.id = b.id := congrArg Prod.snd h
  simp [INodeKey, h1, h2]

/-! ### `toList`, `highsMax` and `MaxOk` basics -/

theorem mem_toList_node {x : INode} {l r : ITree} {v : INode} :
    x ∈ toList (node l v r) ↔ x ∈ toList l ∨ x = v ∨ x ∈ toList r := by
  simp [toList]

theorem toList_eq_nil {t : ITree} : toList t = [] ↔ t = nil := by
  cases t <;> simp [toList]

theorem high_le_highsMax {t : ITree} {x : INode} (hx : x ∈ toList t) :
    (x.interval.high : WithBot ℚ) ≤ highsMax t := by
  induction t with
  | nil => simp [toList] at hx
  | node l v r ihl ihr =>
      rcases mem_toList_node.mp hx with h | h | h
      · exact (ihl h).trans (le_max_left _ _)
      · subst h
        exact ((le_max_left _ _).trans (le_max_right _ _) :
          (x.interval.high : WithBot ℚ) ≤ _)
      · exact ((ihr h).trans (le_max_right _ _)).trans (le_max_right _ _)

theorem exists_high_eq_highsMax {t : ITree} (ht : t ≠ nil) :
    ∃ x ∈ toList t, (x.interval.high : WithBot ℚ) = highsMax t := by
  induction t with
  | nil => exact absurd rfl ht
  | node l v r ihl ihr =>
      rcases le_total (highsMax l) (max (v.interval.high : WithBot ℚ) (highsMax r))
        with h | h
      · rw [highsMax, max_eq_right h]
        rcases le_total (v.interval.high : WithBot ℚ) (highsMax r) with h2 | h2
        · rw [max_eq_right h2]
          have hr : r ≠ nil := by
            rintro rfl
            rw [show highsMax nil = ⊥ from rfl, le_bot_iff] at h2
            exact absurd h2 (by simp)
          obtain ⟨x, hx, hxe⟩ := ihr hr
          exact ⟨x, mem_toList_node.mpr (Or.inr (Or.inr hx)), hxe⟩
        · exact ⟨v, mem_toList_node.mpr (Or.inr (Or.inl rfl)),
            (max_eq_left h2).symm⟩
      · rw [highsMax, max_eq_left h]
        have hl : l ≠ nil := by
          rintro rfl
          rw [show highsMax nil = ⊥ from rfl, le_bot_iff] at h
          have := le_max_left (v.interval.high : WithBot ℚ) (highsMax r)
          rw [h, le_bot_iff] at this
          exact absurd this (by simp)
        obtain ⟨x, hx, hxe⟩ := ihl hl
        exact ⟨x, mem_toList_node.mpr (Or.inl hx), hxe⟩

theorem MaxOk.left {l r : ITree} {v : INode} (h : MaxOk (node l v r)) :
    MaxOk l := h.2.1

theorem MaxOk.right {l r : ITree} {v : INode} (h : MaxOk (node l v r)) :
    MaxOk r := h.2.2

theorem MaxOk.high_le {l r : ITree} {v : INode} (h : MaxOk (node l v r))
    {x : INode} (hx : x ∈ toList (node l v r)) : x.interval.high ≤ v.max := by
  have := high_le_highsMax hx
  rw [← h.1] at this
  exact_mod_cast this

theorem MaxOk.exists_high_eq {l r : ITree} {v : INode}
    (h : MaxOk (node l v r)) :
    ∃ x ∈ toList (node l v r), x.interval.high = v.max := by
  obtain ⟨x, hx, hxe⟩ := exists_high_eq_highsMax (t := node l v r) (by simp)
  rw [← h.1] at hxe
  exact ⟨x, hx, by exact_mod_cast hxe⟩

/-- Every subtree of a max-correct tree is max-correct. -/
theorem MaxOk.subtree {t s : ITree} (h : MaxOk t) (hs : IsSubtree s t) :
    MaxOk s := by
  induction t with
  | nil => cases hs; trivial
  | node l v r ihl ihr =>
      rcases hs with rfl | hs | hs
      · exact h
      · exact ihl h.left hs
      · exact ihr h.right hs

/-! ### `update_tree` lemmas -/

theorem update_tree_data :
    ∀ t : ITree, (toList (update_tree t).1).map INodeData = (toList t).map INodeData
  | nil => rfl
  | node l v r => by
      simp only [update_tree, toList, List.map_append, List.map_cons,
        update_tree_data l, update_tree_data r]
      rfl

theorem update_tree_highsMax :
    ∀ t : ITree, highsMax (update_tree t).1 = highsMax t
  | nil => rfl
  | node l v r => by
      simp only [update_tree, highsMax, update_tree_highsMax l,
        update_tree_highsMax r]

/-- Absorbing the `float('-inf')` sentinel of `_update_tree`: selecting the
node's own `high` when a child maximum is `-inf` computes the same overall
maximum as the child maximum itself. -/
theorem max_unbot'_eq (h : ℚ) (a b : WithBot ℚ) :
    max (h : WithBot ℚ)
        (max ((a.unbot' h : ℚ) : WithBot ℚ) ((b.unbot' h : ℚ) : WithBot ℚ)) =
      max a (max (h : WithBot ℚ) b) := by
  induction a with
  | bot =>
      induction b with
      | bot => simp [WithBot.unbot']
      | coe q =>
          simp only [WithBot.unbot', WithBot.recBotCoe_coe, bot_sup_eq,
            WithBot.recBotCoe_bot, ← WithBot.coe_max, id_eq]
          rw [← sup_assoc, sup_idem, sup_comm]
  | coe p =>
      induction b with
      | bot =>
          simp only [WithBot.unbot', WithBot.recBotCoe_coe,
            WithBot.recBotCoe_bot, sup_bot_eq, ← WithBot.coe_max, id_eq]
          rw [sup_comm p h, ← sup_assoc, sup_idem, sup_comm h p]
      | coe q =>
          simp only [WithBot.unbot', WithBot.recBotCoe_coe, ← WithBot.coe_max,
            id_eq]
          rw [sup_left_comm]

theorem update_tree_snd : ∀ t : ITree, (update_tree t).2 = highsMax t
  | nil => rfl
  | node l v r => by
      simp only [update_tree, highsMax, update_tree_snd l, update_tree_snd r]
      push_cast
      exact max_unbot'_eq v.interval.high (highsMax l) (highsMax r)

theorem update_tree_MaxOk : ∀ t : ITree, MaxOk (update_tree t).1
  | nil => trivial
  | node l v r => by
      refine ⟨?_, update_tree_MaxOk l, update_tree_MaxOk r⟩
      show (_ : WithBot ℚ) = highsMax (node (update_tree l).1 _ (update_tree r).1)
      simp only [highsMax, update_tree_highsMax l, update_tree_highsMax r,
        update_tree_snd l, update_tree_snd r]
      push_cast
      exact max_unbot'_eq v.interval.high (highsMax l) (highsMax r)

end UrbanGen.ITree

namespace UrbanGen.ITree

/-! ### Rotations preserve contents and binary-search-tree order

These two lemmas justify modelling the Red-Black insertion fixup away: the
fixup is a sequence of recolourings (which never touch values) and
rotations, and each rotation keeps the in-order node sequence — hence the
stored multiset and the `Ordered` invariant — unchanged. -/

theorem rotate_left_toList (t : ITree) : toList (rotate_left t) = toList t := by
  match t with
  | nil => rfl
  | node l v nil => rfl
  | node l v (node rl rv rr) => simp [rotate_left, toList]

theorem rotate_right_toList (t : ITree) : toList (rotate_right t) = toList t := by
  match t with
  | nil => rfl
  | node nil v r => rfl
  | node (node ll lv lr) v r => simp [rotate_right, toList]

theorem rotate_left_Ordered {t : ITree} (h : Ordered t) :
    Ordered (rotate_left t) := by
  match t with
  | nil => trivial
  | node l v nil => exact h
  | node l v (node rl rv rr) =>
      obtain ⟨hl, hr, hol, ⟨hrl, hrr, horl, horr⟩⟩ := h
      have hvrv : v.lt rv := hr rv (mem_toList_node.mpr (Or.inr (Or.inl rfl)))
      refine ⟨?_, hrr, ⟨hl, ?_, hol, horl⟩, horr⟩
      · intro x hx
        rcases mem_toList_node.mp hx with hx | hx | hx
        · exact lt_trans (hl x hx) hvrv
        · exact hx ▸ hvrv
        · exact hrl x hx
      · intro x hx
        exact hr x (mem_toList_node.mpr (Or.inl hx))

theorem rotate_right_Ordered {t : ITree} (h : Ordered t) :
    Ordered (rotate_right t) := by
  match t with
  | nil => trivial
  | node nil v r => exact h
  | node (node ll lv lr) v r =>
      obtain ⟨hl, hr, ⟨hll, hlr, holl, holr⟩, hor⟩ := h
      have hlvv : lv.lt v := hl lv (mem_toList_node.mpr (Or.inr (Or.inl rfl)))
      refine ⟨hll, ?_, holl, ⟨?_, hr, holr, hor⟩⟩
      · intro x hx
        rcases mem_toList_node.mp hx with hx | hx | hx
        · exact hlr x hx
        · exact hx ▸ hlvv
        · exact lt_trans hlvv (hr x hx)
      · intro x hx
        exact hl x (mem_toList_node.mpr (Or.inr (Or.inr hx)))

/-! ### `update_tree` preserves the order invariant -/

theorem forall_lt_congr {l₁ l₂ : List INode}
    (h : l₁.map INodeData = l₂.map INodeData) {v v' : INode}
    (hv : INodeData v = INodeData v') :
    (∀ x ∈ l₁, x.lt v) ↔ (∀ x ∈ l₂, x.lt v') := by
  constructor
  · intro hall x hx
    have : INodeData x ∈ l₁.map INodeData := by
      rw [h]; exact List.mem_map_of_mem _ hx
    obtain ⟨y, hy, hyx⟩ := List.mem_map.mp this
    have := hall y hy
    rw [lt_congr_left (key_eq_of_data_eq hyx),
      lt_congr_right (key_eq_of_data_eq hv)] at this
    exact this
  · intro hall x hx
    have : INodeData x ∈ l₂.map INodeData := by
      rw [← h]; exact List.mem_map_of_mem _ hx
    obtain ⟨y, hy, hyx⟩ := List.mem_map.mp this
    have := hall y hy
    rw [lt_congr_left (key_eq_of_data_eq hyx),
      lt_congr_right (key_eq_of_data_eq hv).symm] at this
    exact this

theorem forall_gt_congr {l₁ l₂ : List INode}
    (h : l₁.map INodeData = l₂.map INodeData) {v v' : INode}
    (hv : INodeData v = INodeData v') :
    (∀ x ∈ l₁, v.lt x) ↔ (∀ x ∈ l₂, v'.lt x) := by
  constructor
  · intro hall x hx
    have : INodeData x ∈ l₁.map INodeData := by
      rw [h]; exact List.mem_map_of_mem _ hx
    obtain ⟨y, hy, hyx⟩ := List.mem_map.mp this
    have := hall y hy
    rw [lt_congr_right (key_eq_of_data_eq hyx),
      lt_congr_left (key_eq_of_data_eq hv)] at this
    exact this
  · intro hall x hx
    have : INodeData x ∈ l₂.map INodeData := by
      rw [← h]; exact List.mem_map_of_mem _ hx
    obtain ⟨y, hy, hyx⟩ := List.mem_map.mp this
    have := hall y hy
    rw [lt_congr_right (key_eq_of_data_eq hyx),
      lt_congr_left (key_eq_of_data_eq hv).symm] at this
    exact this

theorem update_tree_Ordered : ∀ {t : ITree}, Ordered t → Ordered (update_tree t).1
  | nil, _ => trivial
  | node l v r, h => by
      obtain ⟨hl, hr, hol, hor⟩ := h
      refine ⟨?_, ?_, update_tree_Ordered hol, update_tree_Ordered hor⟩
      · exact (forall_lt_congr (update_tree_data l) (v := v) rfl).mpr hl
      · exact (forall_gt_congr (update_tree_data r) (v := v) rfl).mpr hr

/-! ### Insertion lemmas -/

theorem insertBST_toList {v : INode} :
    ∀ {t t' : ITree}, insertBST v t = some t' →
      List.Perm (toList t') (v :: toList t)
  | nil, t', h => by
      rw [insertBST] at h
      cases h
      show List.Perm ([] ++ v :: ([] : List INode)) (v :: toList nil)
      exact List.Perm.refl _
  | node l x r, t', h => by
      rw [insertBST] at h
      split at h
      · rcases Option.map_eq_some'.mp h with ⟨l₀, hl₀, rfl⟩
        have ih := insertBST_toList hl₀
        show List.Perm (toList l₀ ++ x :: toList r)
          (v :: (toList l ++ x :: toList r))
        exact ih.append_right _
      · split at h
        · rcases Option.map_eq_some'.mp h with ⟨r₀, hr₀, rfl⟩
          have ih := insertBST_toList hr₀
          show List.Perm (toList l ++ x :: toList r₀)
            (v :: (toList l ++ x :: toList r))
          have h1 : List.Perm (toList l ++ x :: toList r₀)
              (toList l ++ x :: v :: toList r) := (ih.cons x).append_left _
          have h2 : List.Perm (toList l ++ x :: v :: toList r)
              (v :: (toList l ++ x :: toList r)) := by
            have := @List.perm_middle _ v (toList l ++ [x]) (toList r)
            simpa using this
          exact h1.trans h2
        · exact absurd h (by simp)

theorem insertBST_Ordered {v : INode} :
    ∀ {t t' : ITree}, Ordered t → insertBST v t = some t' → Ordered t'
  | nil, t', _, h => by
      rw [insertBST] at h
      cases h
      exact ⟨by simp [toList], by simp [toList], trivial, trivial⟩
  | node l x r, t', ho, h => by
      obtain ⟨hl, hr, hol, hor⟩ := ho
      rw [insertBST] at h
      split at h
      · next hvx =>
        rcases Option.map_eq_some'.mp h with ⟨l₀, hl₀, rfl⟩
        refine ⟨?_, hr, insertBST_Ordered hol hl₀, hor⟩
        intro y hy
        rcases List.mem_cons.mp ((insertBST_toList hl₀).mem_iff.mp hy) with
          rfl | hy'
        · exact hvx
        · exact hl y hy'
      · split at h
        · next hxv =>
          rcases Option.map_eq_some'.mp h with ⟨r₀, hr₀, rfl⟩
          refine ⟨hl, ?_, hol, insertBST_Ordered hor hr₀⟩
          intro y hy
          rcases List.mem_cons.mp ((insertBST_toList hr₀).mem_iff.mp hy) with
            rfl | hy'
          · exact hxv
          · exact hr y hy'
        · exact absurd h (by simp)

theorem key_ne_of_lt {a b : INode} (h : a.lt b) : INodeKey a ≠ INodeKey b := by
  intro he
  exact lt_irrefl b ((lt_congr_left he).mp h)

theorem insertBST_none_iff {v : INode} :
    ∀ {t : ITree}, Ordered t →
      (insertBST v t = none ↔ ∃ x ∈ toList t, INodeKey v = INodeKey x)
  | nil, _ => by simp [insertBST, toList]
  | node l x r, ho => by
      obtain ⟨hl, hr, hol, hor⟩ := ho
      rw [insertBST]
      split
      · next hvx =>
        rw [Option.map_eq_none', insertBST_none_iff hol]
        constructor
        · rintro ⟨y, hy, hk⟩
          exact ⟨y, mem_toList_node.mpr (Or.inl hy), hk⟩
        · rintro ⟨y, hy, hk⟩
          rcases mem_toList_node.mp hy with hy' | rfl | hy'
          · exact ⟨y, hy', hk⟩
          · exact absurd hk (key_ne_of_lt hvx)
          · have hyx : y.lt x := (lt_congr_left hk).mp hvx
            exact absurd (hr y hy') (lt_asymm hyx)
      · split
        · next hvx hxv =>
          rw [Option.map_eq_none', insertBST_none_iff hor]
          constructor
          · rintro ⟨y, hy, hk⟩
            exact ⟨y, mem_toList_node.mpr (Or.inr (Or.inr hy)), hk⟩
          · rintro ⟨y, hy, hk⟩
            rcases mem_toList_node.mp hy with hy' | rfl | hy'
            · exact absurd ((lt_congr_left hk).mpr (hl y hy')) hvx
            · exact absurd hk.symm (key_ne_of_lt hxv)
            · exact ⟨y, hy', hk⟩
        · next hvx hxv =>
          simp only [true_iff]
          exact ⟨x, mem_toList_node.mpr (Or.inr (Or.inl rfl)),
            key_eq_of_not_lt hvx hxv⟩

end UrbanGen.ITree

namespace UrbanGen.ITree

/-! ### Overlap search: soundness, completeness, no duplicates -/

theorem search_sound {q : INode} :
    ∀ {t : ITree} {x : INode}, x ∈ search_overlaps q t →
      x ∈ toList t ∧ x.interval.is_overlap q.interval
  | nil, x, hx => by simp [search_overlaps] at hx
  | node l v r, x, hx => by
      rw [search_overlaps] at hx
      rcases List.mem_append.mp hx with hx | hx
      · split at hx
        · next hov =>
          rcases List.mem_singleton.mp hx with rfl
          exact ⟨mem_toList_node.mpr (Or.inr (Or.inl rfl)), hov⟩
        · simp at hx
      · rcases List.mem_append.mp hx with hx | hx
        · split at hx
          · obtain ⟨hm, hov⟩ := search_sound hx
            exact ⟨mem_toList_node.mpr (Or.inl hm), hov⟩
          · simp at hx
        · split at hx
          · obtain ⟨hm, hov⟩ := search_sound hx
            exact ⟨mem_toList_node.mpr (Or.inr (Or.inr hm)), hov⟩
          · simp at hx

theorem search_complete {q : INode} :
    ∀ {t : ITree}, Ordered t → MaxOk t → ∀ {x : INode}, x ∈ toList t →
      x.interval.is_overlap q.interval → x ∈ search_overlaps q t
  | nil, _, _, x, hx, _ => by simp [toList] at hx
  | node l v r, ho, hm, x, hx, hov => by
      obtain ⟨hlo, hro, holl, horr⟩ := ho
      rw [search_overlaps]
      rcases mem_toList_node.mp hx with hxl | rfl | hxr
      · have hlne : l ≠ nil := fun h => by simp [h, toList] at hxl
        obtain ⟨ll, lv, lr, rfl⟩ : ∃ ll lv lr, l = node ll lv lr := by
          cases l with
          | nil => exact absurd rfl hlne
          | node a b c => exact ⟨a, b, c, rfl⟩
        have hguard : leftGuard q (node ll lv lr) = true := by
          have h1 : x.interval.high ≤ lv.max := (hm.left).high_le hxl
          have h2 : q.interval.low ≤ x.interval.high := hov.2
          simpa [leftGuard] using h2.trans h1
        rw [if_pos hguard]
        have := search_complete holl hm.left hxl hov
        exact List.mem_append.mpr (Or.inr (List.mem_append.mpr (Or.inl this)))
      · rw [if_pos hov]
        exact List.mem_append.mpr (Or.inl (List.mem_singleton.mpr rfl))
      · have hrne : r ≠ nil := fun h => by simp [h, toList] at hxr
        obtain ⟨rl, rv, rr, rfl⟩ : ∃ rl rv rr, r = node rl rv rr := by
          cases r with
          | nil => exact absurd rfl hrne
          | node a b c => exact ⟨a, b, c, rfl⟩
        have hguard : rightGuard q v (node rl rv rr) = true := by
          have h1 : x.interval.high ≤ rv.max := (hm.right).high_le hxr
          have h2 : q.interval.low ≤ x.interval.high := hov.2
          have h3 : v.interval.low ≤ x.interval.low := lt_low_le (hro x hxr)
          have h4 : x.interval.low ≤ q.interval.high := hov.1
          simp only [rightGuard, decide_eq_true_eq]
          exact ⟨h2.trans h1, h3.trans h4⟩
        rw [if_pos hguard]
        have := search_complete horr hm.right hxr hov
        exact List.mem_append.mpr (Or.inr (List.mem_append.mpr (Or.inr this)))

theorem search_nodup {q : INode} :
    ∀ {t : ITree}, Ordered t → (search_overlaps q t).Nodup
  | nil, _ => by simp [search_overlaps]
  | node l v r, ho => by
      obtain ⟨hlo, hro, holl, horr⟩ := ho
      rw [search_overlaps]
      have hsl : ∀ x ∈ (if leftGuard q l then search_overlaps q l else []),
          x ∈ toList l := by
        intro x hx
        split at hx
        · exact (search_sound hx).1
        · simp at hx
      have hsr : ∀ x ∈ (if rightGuard q v r then search_overlaps q r else []),
          x ∈ toList r := by
        intro x hx
        split at hx
        · exact (search_sound hx).1
        · simp at hx
      have hndl : (if leftGuard q l then search_overlaps q l else []).Nodup := by
        split
        · exact search_nodup holl
        · simp
      have hndr : (if rightGuard q v r then search_overlaps q r else []).Nodup := by
        split
        · exact search_nodup horr
        · simp
      have hnd0 : (if v.interval.is_overlap q.interval then [v] else []).Nodup := by
        split <;> simp
      refine List.Nodup.append ?_ (List.Nodup.append hndl hndr ?_) ?_
      · exact hnd0
      · intro x hxl hxr
        exact lt_asymm (hlo x (hsl x hxl)) (hro x (hsr x hxr))
      · intro x hx0 hx
        split at hx0
        · rcases List.mem_singleton.mp hx0 with rfl
          rcases List.mem_append.mp hx with hx | hx
          · exact lt_irrefl x (hlo x (hsl x hx))
          · exact lt_irrefl x (hro x (hsr x hx))
        · simp at hx0

/-! ### `find_one_overlap`: finds an overlap exactly when one exists -/

theorem find_one_sound {q : INode} :
    ∀ {t : ITree} {v : INode}, find_one_overlap q t = some v →
      v ∈ toList t ∧ v.interval.is_overlap q.interval
  | nil, v, h => by simp [find_one_overlap] at h
  | node l x r, v, h => by
      rw [find_one_overlap.eq_def] at h
      simp only [] at h
      split at h
      · next hov =>
        cases h
        exact ⟨mem_toList_node.mpr (Or.inr (Or.inl rfl)), hov⟩
      · revert h
        split
        · intro h
          obtain ⟨hm, hov⟩ := find_one_sound h
          exact ⟨mem_toList_node.mpr (Or.inr (Or.inr hm)), hov⟩
        · split
          · intro h
            obtain ⟨hm, hov⟩ := find_one_sound h
            exact ⟨mem_toList_node.mpr (Or.inr (Or.inr hm)), hov⟩
          · intro h
            obtain ⟨hm, hov⟩ := find_one_sound h
            exact ⟨mem_toList_node.mpr (Or.inl hm), hov⟩

theorem find_one_complete {q : INode} :
    ∀ {t : ITree}, Ordered t → MaxOk t →
      find_one_overlap q t = none →
      ∀ x ∈ toList t, ¬ x.interval.is_overlap q.interval
  | nil, _, _, _, x, hx => by simp [toList] at hx
  | node l v r, ho, hm, hnone, x, hx => by
      obtain ⟨hlo, hro, holl, horr⟩ := ho
      rw [find_one_overlap.eq_def] at hnone
      simp only [] at hnone
      split at hnone
      · exact absurd hnone (by simp)
      · next hov =>
        revert hnone
        split
        · intro hnone
          rcases mem_toList_node.mp hx with hxl | rfl | hxr
          · simp [toList] at hxl
          · exact hov
          · exact find_one_complete horr hm.right hnone x hxr
        · split
          · next hlt =>
            intro hnone
            rcases mem_toList_node.mp hx with hxl | rfl | hxr
            · intro hxov
              have h1 : x.interval.high ≤ _ := (hm.left).high_le hxl
              exact absurd hxov.2 (not_le.mpr (lt_of_le_of_lt h1 hlt))
            · exact hov
            · exact find_one_complete horr hm.right hnone x hxr
          · next hnlt =>
            intro hnone
            have hnol := find_one_complete holl hm.left hnone
            rcases mem_toList_node.mp hx with hxl | rfl | hxr
            · exact hnol x hxl
            · exact hov
            · intro hxov
              obtain ⟨w, hw, hwe⟩ := (hm.left).exists_high_eq
              have hqw : q.interval.low ≤ w.interval.high := by
                rw [hwe]; exact not_lt.mp hnlt
              have hwno := hnol w hw
              have hwlow : q.interval.high < w.interval.low := by
                by_contra hc
                exact hwno ⟨not_lt.mp hc, hqw⟩
              have h1 : w.interval.low ≤ v.interval.low :=
                lt_low_le (hlo w hw)
              have h2 : v.interval.low ≤ x.interval.low :=
                lt_low_le (hro x hxr)
              have : q.interval.high < x.interval.low :=
                lt_of_lt_of_le (lt_of_lt_of_le hwlow h1) h2
              exact absurd hxov.1 (not_le.mpr this)

end UrbanGen.ITree

namespace UrbanGen.ITree

/-! ### Building a tree through `insert_interval` -/

/-- Stored `(interval, id)` pairs of a tree, in order. -/
def pairsOf (t : ITree) : List (UInterval × ℤ) := (toList t).map INodeData

/-- Ordering key of an `(interval, id)` pair, matching `IntervalNode.__lt__`. -/
def pairKey (p : UInterval × ℤ) : ℚ × ℤ := (p.1.low, p.2)

theorem key_eq_pairKey_data (x : INode) : INodeKey x = pairKey (INodeData x) := rfl

/-- In an ordered tree, distinct stored nodes have distinct keys. -/
theorem key_inj :
    ∀ {t : ITree}, Ordered t → ∀ {x y : INode}, x ∈ toList t → y ∈ toList t →
      INodeKey x = INodeKey y → x = y
  | nil, _, x, y, hx, _, _ => by simp [toList] at hx
  | node l v r, ho, x, y, hx, hy, hk => by
      obtain ⟨hlo, hro, holl, horr⟩ := ho
      rcases mem_toList_node.mp hx with hx' | rfl | hx' <;>
        rcases mem_toList_node.mp hy with hy' | hy'' | hy'
      · exact key_inj holl hx' hy' hk
      · exact absurd hk (hy'' ▸ key_ne_of_lt (hlo x hx'))
      · exact absurd hk (key_ne_of_lt (lt_trans (hlo x hx') (hro y hy')))
      · exact absurd hk.symm (key_ne_of_lt (hlo y hy'))
      · exact hy''.symm
      · exact absurd hk (key_ne_of_lt (hro y hy'))
      · exact absurd hk.symm (key_ne_of_lt (lt_trans (hlo y hy') (hro x hx')))
      · exact absurd hk.symm (hy'' ▸ key_ne_of_lt (hro x hx'))
      · exact key_inj horr hx' hy' hk

theorem build_go (pairs : List (UInterval × ℤ)) :
    ∀ t : ITree, Ordered t → MaxOk t →
      ((pairsOf t).map pairKey ++ pairs.map pairKey).Nodup →
      Ordered (pairs.foldl (fun t p => (insert_interval p.1 p.2 t).2) t) ∧
      MaxOk (pairs.foldl (fun t p => (insert_interval p.1 p.2 t).2) t) ∧
      List.Perm (pairsOf (pairs.foldl (fun t p => (insert_interval p.1 p.2 t).2) t))
        (pairsOf t ++ pairs) := by
  induction pairs with
  | nil =>
      intro t ho hm _
      refine ⟨ho, hm, ?_⟩
      simp
  | cons p rest ih =>
      intro t ho hm hnd
      have hfresh : pairKey p ∉ (pairsOf t).map pairKey := by
        rw [List.nodup_append] at hnd
        intro hmem
        exact hnd.2.2 hmem (by simp)
      have hins : insertBST (INode.mkNode p.1 p.2) t ≠ none := by
        intro hn
        obtain ⟨x, hx, hk⟩ := (insertBST_none_iff ho).mp hn
        apply hfresh
        have : INodeKey (INode.mkNode p.1 p.2) = pairKey p := rfl
        rw [← this, hk, key_eq_pairKey_data]
        exact List.mem_map_of_mem _ (List.mem_map_of_mem _ hx)
      obtain ⟨t₀, ht₀⟩ := Option.ne_none_iff_exists'.mp hins
      have hstep : (insert_interval p.1 p.2 t).2 = (update_tree t₀).1 := by
        simp [insert_interval, insert_node, ht₀]
      have hperm₀ : List.Perm (pairsOf (update_tree t₀).1) (p :: pairsOf t) := by
        have h1 : pairsOf (update_tree t₀).1 = pairsOf t₀ := update_tree_data t₀
        rw [h1]
        have h2 := (insertBST_toList ht₀).map INodeData
        simpa [pairsOf, INodeData, INode.mkNode] using h2
      have ho₁ : Ordered (update_tree t₀).1 :=
        update_tree_Ordered (insertBST_Ordered ho ht₀)
      have hm₁ : MaxOk (update_tree t₀).1 := update_tree_MaxOk t₀
      have hnd₁ : ((pairsOf (update_tree t₀).1).map pairKey ++
          rest.map pairKey).Nodup := by
        have hp1 : List.Perm ((pairsOf (update_tree t₀).1).map pairKey ++ rest.map pairKey)
            ((p :: pairsOf t).map pairKey ++ rest.map pairKey) :=
          (hperm₀.map pairKey).append_right _
        have hp2 : List.Perm ((pairsOf t).map pairKey ++ (p :: rest).map pairKey)
            (pairKey p :: ((pairsOf t).map pairKey ++ rest.map pairKey)) := by
          simpa using @List.perm_middle _ (pairKey p)
            ((pairsOf t).map pairKey) (rest.map pairKey)
        rw [hp1.nodup_iff]
        simp only [List.map_cons, List.cons_append]
        exact hp2.nodup_iff.mp hnd
      obtain ⟨ho₂, hm₂, hperm₂⟩ := ih (update_tree t₀).1 ho₁ hm₁ hnd₁
      rw [List.foldl_cons, hstep]
      refine ⟨ho₂, hm₂, hperm₂.trans ?_⟩
      have h3 : List.Perm (pairsOf (update_tree t₀).1 ++ rest)
          ((p :: pairsOf t) ++ rest) := hperm₀.append_right _
      refine h3.trans ?_
      have := @List.perm_middle _ p (pairsOf t) rest
      simpa using this.symm

/-- Claim C2 operation alphabet: the mutating entry points of
`IntervalTree`. -/
inductive TreeOp where
  | ins : UInterval → ℤ → TreeOp
  | del : UInterval → ℤ → TreeOp

/-- Apply one `IntervalTree` mutation. -/
def applyOp (t : ITree) : TreeOp → ITree
  | TreeOp.ins i n => (insert_interval i n t).2
  | TreeOp.del i n => (delete_interval i n t).2

/-- Apply a sequence of `IntervalTree` mutations starting from the empty
tree. -/
def applyOps (ops : List TreeOp) : ITree := ops.foldl applyOp nil

theorem applyOp_MaxOk {t : ITree} (hm : MaxOk t) (op : TreeOp) :
    MaxOk (applyOp t op) := by
  cases op with
  | ins i n =>
      show MaxOk (insert_interval i n t).2
      rw [insert_interval, insert_node]
      cases h : insertBST (INode.mkNode i n) t with
      | none => exact hm
      | some t₀ => exact update_tree_MaxOk t₀
  | del i n =>
      show MaxOk (delete_interval i n t).2
      rw [delete_interval, delete_node]
      split
      · show MaxOk (if removeBST (INode.mkNode i n) t = nil
            then ((true : Bool), removeBST (INode.mkNode i n) t)
            else (true, (update_tree (removeBST (INode.mkNode i n) t)).1)).2
        split
        · next h2 => show MaxOk (removeBST (INode.mkNode i n) t); rw [h2]; trivial
        · exact update_tree_MaxOk _
      · exact hm

theorem applyOps_MaxOk (ops : List TreeOp) : MaxOk (applyOps ops) := by
  rw [applyOps]
  generalize hgen : (nil : ITree) = t0
  have h0 : MaxOk t0 := hgen ▸ trivial
  clear hgen
  induction ops generalizing t0 with
  | nil => exact h0
  | cons op rest ih => exact ih _ (applyOp_MaxOk h0 op)

end UrbanGen.ITree

namespace UrbanGen.ITree

/-- Claim C1 (amended): for every finite list of interval-id pairs with
pairwise-distinct `(low, id)` keys inserted into the `IntervalTree` (and not
deleted) and every query interval `Q`, `search_overlaps` returns exactly the
set of stored intervals `I` satisfying `is_overlap(I, Q)`, with no
duplicates and no omissions, and the returned set is the same for every
insertion order of the same pairs.  (The original claim, without the
distinct-key proviso, fails: see `claim1_counterexample` — two pairs sharing
`(low, id)` but differing in `high` make `RBTree.insert` reject whichever
comes second, so different insertion orders store and return different
sets.) -/
theorem claim1_search_overlaps_exact (pairs : List (UInterval × ℤ))
    (hkeys : (pairs.map pairKey).Nodup) (q : UInterval) :
    ((search_overlapping_interval q (build pairs)).map INodeData).Nodup ∧
    (∀ p : UInterval × ℤ,
      p ∈ (search_overlapping_interval q (build pairs)).map INodeData ↔
        p ∈ pairs ∧ p.1.is_overlap q) ∧
    (∀ pairs₂ : List (UInterval × ℤ), List.Perm pairs pairs₂ →
      ∀ p : UInterval × ℤ,
        (p ∈ (search_overlapping_interval q (build pairs)).map INodeData ↔
          p ∈ (search_overlapping_interval q (build pairs₂)).map INodeData)) := by
  have main : ∀ ps : List (UInterval × ℤ), (ps.map pairKey).Nodup →
      ∀ p : UInterval × ℤ,
        p ∈ (search_overlapping_interval q (build ps)).map INodeData ↔
          p ∈ ps ∧ p.1.is_overlap q := by
    intro ps hnd p
    obtain ⟨hoB, hmB, hpermB⟩ := build_go ps nil trivial trivial
      (by simpa [pairsOf, toList] using hnd)
    have hpermB' : List.Perm (pairsOf (build ps)) ps := by
      simpa [pairsOf, toList, build] using hpermB
    constructor
    · intro hp
      obtain ⟨x, hx, rfl⟩ := List.mem_map.mp hp
      obtain ⟨hxt, hxov⟩ := search_sound hx
      refine ⟨hpermB'.mem_iff.mp (List.mem_map_of_mem _ hxt), hxov⟩
    · rintro ⟨hp, hov⟩
      have : p ∈ pairsOf (build ps) := hpermB'.mem_iff.mpr hp
      obtain ⟨x, hxt, hxp⟩ := List.mem_map.mp this
      have hxov : x.interval.is_overlap q := by
        have : x.interval = p.1 := congrArg Prod.fst hxp
        rw [this]; exact hov
      have hxs : x ∈ search_overlaps (INode.mkNode q (-1)) (build ps) :=
        search_complete hoB hmB hxt hxov
      exact hxp ▸ List.mem_map_of_mem _ hxs
  obtain ⟨hoB, hmB, -⟩ := build_go pairs nil trivial trivial
    (by simpa [pairsOf, toList] using hkeys)
  refine ⟨?_, main pairs hkeys, ?_⟩
  · refine List.Nodup.map_on ?_ (search_nodup hoB)
    intro x hx y hy hdata
    exact key_inj hoB (search_sound hx).1 (search_sound hy).1
      (by rw [key_eq_pairKey_data, key_eq_pairKey_data, hdata])
  · intro pairs₂ hperm p
    have hkeys₂ : (pairs₂.map pairKey).Nodup :=
      (hperm.map pairKey).nodup_iff.mp hkeys
    rw [main pairs hkeys p, main pairs₂ hkeys₂ p, hperm.mem_iff]

/-- Witness for `claim1_search_overlaps_exact` at the worked example of the
specification: intervals `(1,3) (2,4) (5,7) (6,8)` and query `(3,6)`. -/
theorem claim1_search_overlaps_exact_witness :
    (([((⟨1,3⟩ : UInterval), (1 : ℤ)), (⟨2,4⟩, 2), (⟨5,7⟩, 3),
        (⟨6,8⟩, 4)].map pairKey).Nodup) ∧
    (((search_overlapping_interval ⟨3,6⟩
        (build [(⟨1,3⟩, 1), (⟨2,4⟩, 2), (⟨5,7⟩, 3), (⟨6,8⟩, 4)])).map
          INodeData).Nodup ∧
      (∀ p : UInterval × ℤ,
        p ∈ (search_overlapping_interval ⟨3,6⟩
            (build [(⟨1,3⟩, 1), (⟨2,4⟩, 2), (⟨5,7⟩, 3), (⟨6,8⟩, 4)])).map
              INodeData ↔
          p ∈ [(⟨1,3⟩, 1), (⟨2,4⟩, 2), (⟨5,7⟩, 3), (⟨6,8⟩, 4)] ∧
            p.1.is_overlap ⟨3,6⟩) ∧
      (∀ pairs₂, List.Perm [(⟨1,3⟩, 1), (⟨2,4⟩, 2), (⟨5,7⟩, 3), (⟨6,8⟩, 4)]
          pairs₂ →
        ∀ p : UInterval × ℤ,
          (p ∈ (search_overlapping_interval ⟨3,6⟩
              (build [(⟨1,3⟩, 1), (⟨2,4⟩, 2), (⟨5,7⟩, 3), (⟨6,8⟩, 4)])).map
                INodeData ↔
            p ∈ (search_overlapping_interval ⟨3,6⟩ (build pairs₂)).map
              INodeData))) :=
  ⟨by decide, claim1_search_overlaps_exact _ (by decide) _⟩

/-- Counterexample to claim C1 as stated: the pair lists
`[((1,3),1), ((1,5),1)]` and `[((1,5),1), ((1,3),1)]` are permutations of
one another, yet inserting them in these two orders and searching for
overlaps with `(4,10)` returns different sets (`RBTree.insert` rejects the
second pair of each list because it compares only `(low, id)`). -/
theorem claim1_counterexample :
    List.Perm [((⟨1,3⟩ : UInterval), (1 : ℤ)), (⟨1,5⟩, 1)]
      [(⟨1,5⟩, 1), (⟨1,3⟩, 1)] ∧
    (search_overlapping_interval ⟨4,10⟩
      (build [(⟨1,3⟩, 1), (⟨1,5⟩, 1)])).map INodeData = [] ∧
    (search_overlapping_interval ⟨4,10⟩
      (build [(⟨1,5⟩, 1), (⟨1,3⟩, 1)])).map INodeData = [(⟨1,5⟩, 1)] :=
  ⟨List.Perm.swap _ _ _, by decide, by decide⟩

/-- Claim C2: after every `insert_node`/`insert_interval` and every
`delete_node`/`delete_interval` (any sequence of them starting from the
empty tree), every node of the tree caches in `max` exactly the maximum
`interval.high` over the subtree rooted at that node: the cached value is an
upper bound of the subtree's `high` values and is attained by one of them. -/
theorem claim2_max_invariant (ops : List TreeOp) {l : ITree} {v : INode}
    {r : ITree} (hs : IsSubtree (node l v r) (applyOps ops)) :
    (∀ x ∈ toList (node l v r), x.interval.high ≤ v.max) ∧
    (∃ x ∈ toList (node l v r), x.interval.high = v.max) := by
  have hm : MaxOk (node l v r) := (applyOps_MaxOk ops).subtree hs
  exact ⟨fun x hx => hm.high_le hx, hm.exists_high_eq⟩

/-- Witness for `claim2_max_invariant`: insert `(1,5)` and `(2,9)`, delete
`(1,5)`; the remaining root caches `max = 9`. -/
theorem claim2_max_invariant_witness :
    IsSubtree (node nil ⟨⟨2,9⟩, 2, 9⟩ nil)
      (applyOps [TreeOp.ins ⟨1,5⟩ 1, TreeOp.ins ⟨2,9⟩ 2,
        TreeOp.del ⟨1,5⟩ 1]) ∧
    ((∀ x ∈ toList (node nil ⟨⟨2,9⟩, 2, 9⟩ nil),
        x.interval.high ≤ (⟨⟨2,9⟩, 2, 9⟩ : INode).max) ∧
      (∃ x ∈ toList (node nil ⟨⟨2,9⟩, 2, 9⟩ nil),
        x.interval.high = (⟨⟨2,9⟩, 2, 9⟩ : INode).max)) :=
  have hs : IsSubtree (node nil ⟨⟨2,9⟩, 2, 9⟩ nil)
      (applyOps [TreeOp.ins ⟨1,5⟩ 1, TreeOp.ins ⟨2,9⟩ 2,
        TreeOp.del ⟨1,5⟩ 1]) := by decide
  ⟨hs, claim2_max_invariant _ hs⟩

/-- Claim C10: on any `IntervalTree` state (a binary-search-tree-ordered
tree) whose cached `max` fields are correct, `find_one_overlap(target)`
returns some stored interval overlapping the target whenever one exists,
and returns `None` exactly when no stored interval overlaps the target: the
non-exhaustive descent never misses an existing overlap. -/
theorem claim10_find_one_overlap (t : ITree) (hord : Ordered t)
    (hmax : MaxOk t) (target : INode) :
    (∀ v, find_one_overlap target t = some v →
      v ∈ toList t ∧ v.interval.is_overlap target.interval) ∧
    (find_one_overlap target t = none ↔
      ∀ x ∈ toList t, ¬ x.interval.is_overlap target.interval) := by
  refine ⟨fun v h => find_one_sound h, ?_, ?_⟩
  · exact fun h => find_one_complete hord hmax h
  · intro hno
    cases h : find_one_overlap target t with
    | none => rfl
    | some v =>
        obtain ⟨hv, hov⟩ := find_one_sound h
        exact absurd hov (hno v hv)

/-- Witness for `claim10_find_one_overlap`: in the tree holding `(1,3)` and
`(5,7)`, the descent finds an overlap with target `(4,6)`. -/
theorem claim10_find_one_overlap_witness :
    Ordered (build [((⟨1,3⟩ : UInterval), (1 : ℤ)), (⟨5,7⟩, 2)]) ∧
    MaxOk (build [((⟨1,3⟩ : UInterval), (1 : ℤ)), (⟨5,7⟩, 2)]) ∧
    ((∀ v, find_one_overlap (INode.mkNode ⟨4,6⟩ (-1))
        (build [(⟨1,3⟩, 1), (⟨5,7⟩, 2)]) = some v →
      v ∈ toList (build [(⟨1,3⟩, 1), (⟨5,7⟩, 2)]) ∧
        v.interval.is_overlap (INode.mkNode ⟨4,6⟩ (-1)).interval) ∧
    (find_one_overlap (INode.mkNode ⟨4,6⟩ (-1))
        (build [(⟨1,3⟩, 1), (⟨5,7⟩, 2)]) = none ↔
      ∀ x ∈ toList (build [(⟨1,3⟩, 1), (⟨5,7⟩, 2)]),
        ¬ x.interval.is_overlap (INode.mkNode ⟨4,6⟩ (-1)).interval)) :=
  ⟨by decide, by decide,
    claim10_find_one_overlap _ (by decide) (by decide) _⟩

end UrbanGen.ITree

namespace UrbanGen

/-! ## Geometry primitives (planning_api/geometry/utils.py)

Coordinates are embedded as rationals; `math.sqrt` values live in `ℝ`.
Comparisons that the source performs on square roots (`distance_to(...) <
1e-6`) are embedded on the squared quantity, with bridging lemmas relating
the two forms (`is_closed_iff_dist`). -/

/-- Embedding of `Point3D`. -/
structure Point3D where
  x : ℚ
  y : ℚ
  z : ℚ
deriving DecidableEq, Repr

instance : Inhabited Point3D := ⟨⟨0, 0, 0⟩⟩

/-- Squared distance between two points (the radicand of
`Point3D.distance_to`). -/
def Point3D.distSq (p q : Point3D) : ℚ :=
  (p.x - q.x) * (p.x - q.x) + (p.y - q.y) * (p.y - q.y) +
    (p.z - q.z) * (p.z - q.z)

/-- Embedding of `Point3D.distance_to`. -/
noncomputable def Point3D.distance_to (p q : Point3D) : ℝ :=
  Real.sqrt (Point3D.distSq p q)

/-- Embedding of `Vector3D` (only the operations the claims need). -/
structure Vector3D where
  x : ℚ
  y : ℚ
  z : ℚ
deriving DecidableEq, Repr

/-- Embedding of `Vector3D.dot`. -/
def Vector3D.dot (a b : Vector3D) : ℚ := a.x * b.x + a.y * b.y + a.z * b.z

/-- Embedding of `Line` (`end` is a Lean keyword, hence `endPoint`). -/
structure Line where
  start : Point3D
  endPoint : Point3D
deriving DecidableEq, Repr

/-- Embedding of the `Line.direction` property. -/
def Line.direction (l : Line) : Vector3D :=
  ⟨l.endPoint.x - l.start.x, l.endPoint.y - l.start.y, l.endPoint.z - l.start.z⟩

/-- Embedding of `Line.point_at`. -/
def Line.point_at (l : Line) (t : ℚ) : Point3D :=
  ⟨l.start.x + t * (l.endPoint.x - l.start.x),
   l.start.y + t * (l.endPoint.y - l.start.y),
   l.start.z + t * (l.endPoint.z - l.start.z)⟩

/-- Embedding of `Line.closest_point`: on a zero-length line return `start`;
otherwise project, clamping the parameter to `[0, 1]` when
`limit_to_segment` is set. -/
def Line.closest_point (l : Line) (point : Point3D)
    (limit_to_segment : Bool) : Point3D :=
  let direction := l.direction
  let start_to_point : Vector3D :=
    ⟨point.x - l.start.x, point.y - l.start.y, point.z - l.start.z⟩
  let length_squared := direction.dot direction
  if length_squared = 0 then l.start
  else
    let t := start_to_point.dot direction / length_squared
    let t := if limit_to_segment then max 0 (min 1 t) else t
    l.point_at t

/-- Embedding of `Line.closest_parameter`: 0 on a zero-length line. -/
def Line.closest_parameter (l : Line) (point : Point3D) : ℚ :=
  let direction := l.direction
  let start_to_point : Vector3D :=
    ⟨point.x - l.start.x, point.y - l.start.y, point.z - l.start.z⟩
  let length_squared := direction.dot direction
  if length_squared = 0 then 0
  else start_to_point.dot direction / length_squared

/-- Embedding of `Polyline`. -/
structure Polyline where
  points : List Point3D
deriving DecidableEq, Repr

/-- Embedding of `Polyline.is_closed`: at least 4 points and the first point
within `1e-6` of the last.  The source compares
`points[0].distance_to(points[-1]) < 1e-6`; here the equivalent squared
comparison keeps the predicate decidable (see `is_closed_iff_dist`). -/
def Polyline.is_closed (p : Polyline) : Prop :=
  4 ≤ p.points.length ∧
    Point3D.distSq p.points.headI p.points.getLastI < (1 / 1000000000000 : ℚ)

instance (p : Polyline) : Decidable p.is_closed :=
  inferInstanceAs (Decidable (_ ∧ _))

/-- Embedding of `Polyline.is_valid`. -/
def Polyline.is_valid (p : Polyline) : Prop := 2 ≤ p.points.length

instance (p : Polyline) : Decidable p.is_valid :=
  inferInstanceAs (Decidable (_ ≤ _))

/-- Accumulator type for the three shoelace sums `a`, `b`, `c` of
`Polyline.get_area`. -/
abbrev Vec3Q := ℚ × ℚ × ℚ

/-- One iteration of the `get_area` loop: the contribution of the triangle
`(p0, p1, p2)` to the accumulators, with `v1 = p1 - p0` and `v2 = p2 - p0`
exactly as in the source (`a += v1.y*v2.z - v2.y*v1.z`;
`b -= v1.z*v2.x - v2.z*v1.x`; `c += v1.x*v2.y - v2.x*v1.y`). -/
def shoeTerm (p0 p1 p2 : Point3D) : Vec3Q :=
  ((p1.y - p0.y) * (p2.z - p0.z) - (p2.y - p0.y) * (p1.z - p0.z),
   -((p1.z - p0.z) * (p2.x - p0.x) - (p2.z - p0.z) * (p1.x - p0.x)),
   (p1.x - p0.x) * (p2.y - p0.y) - (p2.x - p0.x) * (p1.y - p0.y))

/-- The `get_area` loop over `i in range(1, len(points) - 1)`: it walks the
consecutive pairs of the tail of the point list. -/
def shoeAcc (p0 : Point3D) : List Point3D → Vec3Q
  | p1 :: p2 :: rest => shoeTerm p0 p1 p2 + shoeAcc p0 (p2 :: rest)
  | _ => 0

/-- Final accumulator values `(a, b, c)` of `Polyline.get_area`. -/
def shoeVec : List Point3D → Vec3Q
  | [] => 0
  | p0 :: rest => shoeAcc p0 rest

/-- Radicand `a*a + b*b + c*c` of `Polyline.get_area`. -/
def Vec3Q.normSq (v : Vec3Q) : ℚ := v.1 ^ 2 + v.2.1 ^ 2 + v.2.2 ^ 2

/-- Embedding of `Polyline.get_area`: 0 for open or short polylines,
otherwise `sqrt(a*a + b*b + c*c) / 2`. -/
noncomputable def Polyline.get_area (p : Polyline) : ℝ :=
  if ¬ p.is_closed ∨ p.points.length < 4 then 0
  else Real.sqrt ((shoeVec p.points).normSq : ℚ) / 2

/-! ## Geometry construction (planning_api/geometry/advanced.py) -/

/-- The loop of `CurveOperations.polyline_from_vertices`: step through the
flattened array three at a time, keeping each complete `(x, y, z)` triple
and dropping an incomplete trailing remainder (`if i + 2 < len(...)`). -/
def groupTriples : List ℚ → List Point3D
  | x :: y :: z :: rest => ⟨x, y, z⟩ :: groupTriples rest
  | _ => []

/-- Embedding of `CurveOperations.polyline_from_vertices`. -/
def polyline_from_vertices (flattened_vertices : List ℚ) : Polyline :=
  ⟨groupTriples flattened_vertices⟩

end UrbanGen

namespace UrbanGen

/-! ### Shoelace algebra for claim C5 -/

theorem headI_eq_iget {α : Type} [Inhabited α] (l : List α) :
    l.headI = l.head?.iget := by cases l <;> rfl

theorem headI_reverse {α : Type} [Inhabited α] (l : List α) :
    l.reverse.headI = l.getLastI := by
  rw [headI_eq_iget, List.head?_reverse, List.getLastI_eq_getLast?]

theorem getLastI_reverse {α : Type} [Inhabited α] (l : List α) :
    l.reverse.getLastI = l.headI := by
  rw [List.getLastI_eq_getLast?, List.getLast?_reverse, headI_eq_iget]

/-- Bilinear form underlying `shoeTerm`, applied to absolute coordinates. -/
def wTerm (p q : Point3D) : Vec3Q :=
  (p.y * q.z - q.y * p.z, -(p.z * q.x - q.z * p.x), p.x * q.y - q.x * p.y)

theorem wTerm_antisymm (p q : Point3D) : wTerm p q = - wTerm q p := by
  simp only [wTerm, Prod.neg_mk, Prod.mk.injEq]
  refine ⟨by ring, by ring, by ring⟩

theorem shoeTerm_eq (p0 p1 p2 : Point3D) :
    shoeTerm p0 p1 p2 = wTerm p1 p2 + wTerm p0 p1 - wTerm p0 p2 := by
  simp only [shoeTerm, wTerm, Prod.mk_add_mk, Prod.mk_sub_mk, Prod.mk.injEq]
  refine ⟨by ring, by ring, by ring⟩

/-- Sum of `wTerm` over consecutive pairs. -/
def adjW : List Point3D → Vec3Q
  | p :: q :: rest => wTerm p q + adjW (q :: rest)
  | _ => 0

theorem getLastI_cons_cons {α : Type} [Inhabited α] (a b : α) (l : List α) :
    (a :: b :: l).getLastI = (b :: l).getLastI := by
  simp [List.getLastI_eq_getLast?]

theorem shoeAcc_eq (p0 : Point3D) :
    ∀ rest : List Point3D, rest ≠ [] →
      shoeAcc p0 rest = adjW rest + wTerm p0 rest.headI - wTerm p0 rest.getLastI
  | [], h => absurd rfl h
  | [x], _ => by
      show (0 : Vec3Q) = adjW [x] + wTerm p0 x - wTerm p0 x
      show (0 : Vec3Q) = 0 + wTerm p0 x - wTerm p0 x
      abel
  | x :: y :: rest, _ => by
      rw [show shoeAcc p0 (x :: y :: rest) =
          shoeTerm p0 x y + shoeAcc p0 (y :: rest) from rfl]
      rw [shoeAcc_eq p0 (y :: rest) (by simp)]
      rw [shoeTerm_eq, getLastI_cons_cons]
      rw [show adjW (x :: y :: rest) = wTerm x y + adjW (y :: rest) from rfl]
      simp only [List.headI_cons]
      abel

/-- Cyclic shoelace sum: adjacent-pair contributions plus the wrap-around
term. -/
def cycW (l : List Point3D) : Vec3Q := adjW l + wTerm l.getLastI l.headI

/-- The `get_area` accumulator equals the cyclic sum — in particular it does
not depend on the choice of base point, whether or not the polyline is
exactly closed. -/
theorem shoeVec_eq_cycW : ∀ l : List Point3D, 2 ≤ l.length → shoeVec l = cycW l
  | [], h => by simp at h
  | [x], h => by simp at h
  | p0 :: q :: rest, _ => by
      rw [show shoeVec (p0 :: q :: rest) = shoeAcc p0 (q :: rest) from rfl]
      rw [shoeAcc_eq p0 (q :: rest) (by simp)]
      rw [cycW, getLastI_cons_cons]
      rw [show adjW (p0 :: q :: rest) = wTerm p0 q + adjW (q :: rest) from rfl]
      simp only [List.headI_cons]
      rw [wTerm_antisymm (q :: rest).getLastI p0]
      abel

theorem adjW_append_single :
    ∀ (l : List Point3D) (a : Point3D), l ≠ [] →
      adjW (l ++ [a]) = adjW l + wTerm l.getLastI a
  | [], a, h => absurd rfl h
  | [x], a, _ => by
      show wTerm x a + adjW [a] = adjW [x] + wTerm x a
      show wTerm x a + 0 = 0 + wTerm x a
      abel
  | x :: y :: rest, a, _ => by
      rw [show (x :: y :: rest) ++ [a] = x :: y :: (rest ++ [a]) from rfl]
      rw [show adjW (x :: y :: (rest ++ [a])) =
          wTerm x y + adjW (y :: (rest ++ [a])) from rfl]
      rw [show (y :: (rest ++ [a])) = (y :: rest) ++ [a] from rfl]
      rw [adjW_append_single (y :: rest) a (by simp), getLastI_cons_cons]
      rw [show adjW (x :: y :: rest) = wTerm x y + adjW (y :: rest) from rfl]
      abel

theorem adjW_reverse : ∀ l : List Point3D, adjW l.reverse = - adjW l
  | [] => by simp [adjW]
  | [x] => by simp [adjW]
  | x :: y :: rest => by
      rw [show (x :: y :: rest).reverse = (y :: rest).reverse ++ [x] from by
        simp]
      rw [adjW_append_single _ x (by simp), adjW_reverse (y :: rest),
        getLastI_reverse]
      rw [show adjW (x :: y :: rest) = wTerm x y + adjW (y :: rest) from rfl]
      simp only [List.headI_cons]
      rw [wTerm_antisymm y x]
      abel

theorem cycW_reverse (l : List Point3D) : cycW l.reverse = - cycW l := by
  rw [cycW, cycW, adjW_reverse, headI_reverse, getLastI_reverse,
    wTerm_antisymm l.headI l.getLastI]
  abel

theorem shoeVec_reverse (l : List Point3D) (h : 2 ≤ l.length) :
    shoeVec l.reverse = - shoeVec l := by
  rw [shoeVec_eq_cycW l h, shoeVec_eq_cycW l.reverse (by simpa using h),
    cycW_reverse]

theorem normSq_neg (v : Vec3Q) : (-v).normSq = v.normSq := by
  obtain ⟨a, b, c⟩ := v
  simp only [Vec3Q.normSq, Prod.neg_mk, Prod.fst, Prod.snd]
  ring

theorem distSq_comm (p q : Point3D) : Point3D.distSq p q = Point3D.distSq q p := by
  simp only [Point3D.distSq]
  ring

/-- Reversal preserves closedness of a polyline. -/
theorem is_closed_reverse (p : Polyline) :
    (Polyline.mk p.points.reverse).is_closed ↔ p.is_closed := by
  simp only [Polyline.is_closed, List.length_reverse, headI_reverse,
    getLastI_reverse, distSq_comm]

/-- Bridge to the source form of `Polyline.is_closed`: comparing the
`math.sqrt` distance against `1e-6` is the same as the squared comparison
used in the embedding. -/
theorem is_closed_iff_dist (p : Polyline) :
    p.is_closed ↔ 4 ≤ p.points.length ∧
      Point3D.distance_to p.points.headI p.points.getLastI <
        (1 / 1000000 : ℝ) := by
  rw [Polyline.is_closed, Point3D.distance_to]
  have h : Real.sqrt (Point3D.distSq p.points.headI p.points.getLastI) <
      (1 / 1000000 : ℝ) ↔
      (Point3D.distSq p.points.headI p.points.getLastI : ℝ) <
        ((1 / 1000000 : ℝ)) ^ 2 := Real.sqrt_lt' (by norm_num)
  have h2 : ((1 / 1000000 : ℝ)) ^ 2 =
      ((1 / 1000000000000 : ℚ) : ℝ) := by norm_num
  rw [h, h2, Rat.cast_lt]

theorem get_area_nonneg (p : Polyline) : 0 ≤ p.get_area := by
  rw [Polyline.get_area]
  split
  · exact le_refl 0
  · positivity

/-- Claim C5: for every valid closed polyline (at least 4 points, first
point within `1e-6` of the last), `get_area` is non-negative, and the
polyline whose point list is the reverse has exactly the same area: the
area is an orientation-independent magnitude. -/
theorem claim5_area_orientation (p : Polyline) (hc : p.is_closed) :
    0 ≤ p.get_area ∧ Polyline.get_area ⟨p.points.reverse⟩ = p.get_area := by
  refine ⟨get_area_nonneg p, ?_⟩
  have hrc : (Polyline.mk p.points.reverse).is_closed :=
    (is_closed_reverse p).mpr hc
  have hlen : ¬ ((Polyline.mk p.points.reverse).points.length < 4) := by
    simpa using not_lt.mpr hc.1
  rw [Polyline.get_area, Polyline.get_area,
    if_neg (by push_neg; exact ⟨hrc, by simpa using hc.1⟩),
    if_neg (by push_neg; exact ⟨hc, not_lt.mp (by simpa using hlen)⟩)]
  have h2 : 2 ≤ p.points.length := le_trans (by norm_num) hc.1
  rw [show (Polyline.mk p.points.reverse).points = p.points.reverse from rfl,
    shoeVec_reverse p.points h2, normSq_neg]

/-- Witness for `claim5_area_orientation`: the closed `4 × 3` rectangle. -/
theorem claim5_area_orientation_witness :
    (Polyline.mk [⟨0,0,0⟩, ⟨4,0,0⟩, ⟨4,3,0⟩, ⟨0,3,0⟩, ⟨0,0,0⟩]).is_closed ∧
    (0 ≤ (Polyline.mk [⟨0,0,0⟩, ⟨4,0,0⟩, ⟨4,3,0⟩, ⟨0,3,0⟩,
        ⟨0,0,0⟩]).get_area ∧
      Polyline.get_area ⟨(Polyline.mk [⟨0,0,0⟩, ⟨4,0,0⟩, ⟨4,3,0⟩, ⟨0,3,0⟩,
        ⟨0,0,0⟩]).points.reverse⟩ =
        (Polyline.mk [⟨0,0,0⟩, ⟨4,0,0⟩, ⟨4,3,0⟩, ⟨0,3,0⟩,
          ⟨0,0,0⟩]).get_area) :=
  have hc : (Polyline.mk [⟨0,0,0⟩, ⟨4,0,0⟩, ⟨4,3,0⟩, ⟨0,3,0⟩,
      ⟨0,0,0⟩]).is_closed := by
    norm_num [Polyline.is_closed, Point3D.distSq, List.getLastI]
  ⟨hc, claim5_area_orientation _ hc⟩

/-! ### Claims C9 and C6 -/

theorem point_at_zero (l : Line) : l.point_at 0 = l.start := by
  simp only [Line.point_at]
  obtain ⟨x, y, z⟩ := l.start
  simp

/-- Claim C9: on a zero-length line (`start = end`) `closest_point` returns
the start point and `closest_parameter` returns 0 for every query point and
either clamping mode, with no division by zero; and for every line and
point, `closest_point` with `limit_to_segment = True` lands at a parameter
in `[0, 1]`. -/
theorem claim9_closest_point_safety (l : Line) (point : Point3D) (b : Bool) :
    (l.start = l.endPoint →
      l.closest_point point b = l.start ∧ l.closest_parameter point = 0) ∧
    (∃ t : ℚ, 0 ≤ t ∧ t ≤ 1 ∧ l.closest_point point true = l.point_at t) := by
  constructor
  · intro hze
    have hdir : l.direction = ⟨0, 0, 0⟩ := by
      simp [Line.direction, hze]
    have hlsq : (l.direction).dot l.direction = 0 := by
      rw [hdir]; simp [Vector3D.dot]
    constructor
    · rw [Line.closest_point]
      simp [hlsq]
    · rw [Line.closest_parameter]
      simp [hlsq]
  · by_cases hlsq : (l.direction).dot l.direction = 0
    · refine ⟨0, le_refl 0, by norm_num, ?_⟩
      rw [Line.closest_point]
      simp [hlsq, point_at_zero]
    · set traw := (⟨point.x - l.start.x, point.y - l.start.y,
        point.z - l.start.z⟩ : Vector3D).dot l.direction /
          (l.direction).dot l.direction with ht
      refine ⟨max 0 (min 1 traw), le_max_left _ _,
        max_le (by norm_num) (min_le_left _ _), ?_⟩
      rw [Line.closest_point]
      simp [hlsq, ← ht]

/-- Witness for `claim9_closest_point_safety` at a zero-length line. -/
theorem claim9_closest_point_safety_witness :
    ((Line.mk ⟨1,2,3⟩ ⟨1,2,3⟩).closest_point ⟨7,8,9⟩ true =
        (Line.mk ⟨1,2,3⟩ ⟨1,2,3⟩).start ∧
      (Line.mk ⟨1,2,3⟩ ⟨1,2,3⟩).closest_parameter ⟨7,8,9⟩ = 0) ∧
    (∃ t : ℚ, 0 ≤ t ∧ t ≤ 1 ∧
      (Line.mk ⟨1,2,3⟩ ⟨1,2,3⟩).closest_point ⟨7,8,9⟩ true =
        (Line.mk ⟨1,2,3⟩ ⟨1,2,3⟩).point_at t) :=
  ⟨(claim9_closest_point_safety (Line.mk ⟨1,2,3⟩ ⟨1,2,3⟩) ⟨7,8,9⟩ true).1 rfl,
    (claim9_closest_point_safety (Line.mk ⟨1,2,3⟩ ⟨1,2,3⟩) ⟨7,8,9⟩ true).2⟩

theorem groupTriples_spec :
    ∀ vs : List ℚ, (groupTriples vs).length = vs.length / 3 ∧
      ∀ k, k < vs.length / 3 →
        (groupTriples vs)[k]? =
          some ⟨vs.getD (3 * k) 0, vs.getD (3 * k + 1) 0, vs.getD (3 * k + 2) 0⟩
  | [] => by simp [groupTriples]
  | [x] => by simp [groupTriples]
  | [x, y] => by simp [groupTriples]
  | x :: y :: z :: rest => by
      obtain ⟨ih1, ih2⟩ := groupTriples_spec rest
      have hq : (x :: y :: z :: rest).length / 3 = rest.length / 3 + 1 := by
        simp only [List.length_cons]
        omega
      constructor
      · simp only [groupTriples, List.length_cons, ih1, hq]
        omega
      · intro k hk
        match k with
        | 0 => simp [groupTriples]
        | Nat.succ k =>
            have hk' : k < rest.length / 3 := by omega
            have h3 : 3 * (k + 1) = 3 * k + 3 := by ring
            simp only [groupTriples, List.getElem?_cons_succ, ih2 k hk', h3]
            simp [List.getD]

/-- Claim C6 (amended): `polyline_from_vertices` never fails; for every
input it returns a `Polyline` containing one point per consecutive complete
coordinate triple — `⌊len / 3⌋` points — silently dropping a trailing
remainder when the length is not divisible by 3 and imposing no minimum
point count.  (The claimed `InvalidVertexCount` failure does not exist in
this function; the only divisible-by-3 / at-least-3-points validation in the
repository lives in the web-layer request serializer, which is out of the
specified core.) -/
theorem claim6_polyline_from_vertices (vs : List ℚ) :
    (polyline_from_vertices vs).points.length = vs.length / 3 ∧
    ∀ k, k < vs.length / 3 →
      (polyline_from_vertices vs).points[k]? =
        some ⟨vs.getD (3 * k) 0, vs.getD (3 * k + 1) 0, vs.getD (3 * k + 2) 0⟩ :=
  groupTriples_spec vs

/-- Witness for `claim6_polyline_from_vertices` on a six-entry array. -/
theorem claim6_polyline_from_vertices_witness :
    (polyline_from_vertices [1, 2, 3, 4, 5, 6]).points.length = 2 ∧
    (polyline_from_vertices [1, 2, 3, 4, 5, 6]).points[1]? =
      some ⟨4, 5, 6⟩ :=
  ⟨(claim6_polyline_from_vertices [1, 2, 3, 4, 5, 6]).1, by
    have := (claim6_polyline_from_vertices [1, 2, 3, 4, 5, 6]).2 1 (by norm_num)
    simpa using this⟩

/-- Counterexample to claim C6 as stated: an array of length 4 (not
divisible by 3) and an array encoding fewer than 3 points both produce a
`Polyline` result — the incomplete tail is silently dropped — rather than
failing with an `InvalidVertexCount` error. -/
theorem claim6_counterexample :
    polyline_from_vertices [0, 0, 0, 1] = ⟨[⟨0, 0, 0⟩]⟩ ∧
    polyline_from_vertices [1, 2] = ⟨[]⟩ :=
  ⟨rfl, rfl⟩

end UrbanGen

namespace UrbanGen

/-! ## Curve containment (planning_api/geometry/curve_addon.py)

`CurveAddOn.contains` takes a curve, a point, a plane and a tolerance.  The
embedding models the `Polyline` branch of the `try_get_polyline` conversion
(the claims concern polyline-representable curves) and embeds Python
exceptions in `Except`.  Crucially, `utils.Plane` defines no `is_valid`
member, and `GeometryUtils` defines neither `plane_to_plane_transform`,
`transform_polyline`, `transform_point`, nor does `Plane` define `world_xy`
— those attribute accesses raise `AttributeError` at run time, which the
embedding records as `GeoErr.attributeError` at exactly the statement where
the source first performs such an access. -/

/-- Python exceptions of the geometry add-on paths. -/
inductive GeoErr where
  | valueError : GeoErr
  | attributeError : GeoErr
deriving DecidableEq, Repr

/-- Embedding of the `PointContainment` enumeration. -/
inductive PointContainment where
  | unset : PointContainment
  | inside : PointContainment
  | outside : PointContainment
  | coincident : PointContainment
deriving DecidableEq, Repr

/-- Embedding of `Plane` as constructed (`origin`, `normal`).  The
`__post_init__` normalisation of `normal` is not modelled: every path below
reads the plane only through the missing `is_valid` attribute, so the
normalised value is never observable in the functions embedded here. -/
structure Plane where
  origin : Point3D
  normal : Vector3D
deriving DecidableEq, Repr

/-- Embedding of the attribute access `plane.is_valid`: `utils.Plane`
defines no such member anywhere in the repository, so the Python lookup
raises `AttributeError`. -/
def planeIsValid (pl : Plane) : Except GeoErr Bool :=
  Except.error GeoErr.attributeError

/-- Embedding of `PlaneAddOn.line_plane_intersection` (pure arithmetic;
reachable only behind the failing `is_valid` check, included for
completeness). -/
def line_plane_intersection (line : Line) (pl : Plane) : Option Point3D :=
  let line_direction := line.direction
  let line_point := line.start
  let denominator := pl.normal.dot line_direction
  if |denominator| < 1 / 10000000000 then none
  else
    let to_plane_point : Vector3D :=
      ⟨pl.origin.x - line_point.x, pl.origin.y - line_point.y,
        pl.origin.z - line_point.z⟩
    let t := pl.normal.dot to_plane_point / denominator
    some ⟨line_point.x + t * line_direction.x,
      line_point.y + t * line_direction.y,
      line_point.z + t * line_direction.z⟩

/-- Embedding of `PlaneAddOn.project_point`: the `plane.is_valid` check
raises before any geometry is computed. -/
def project_point (pl : Plane) (point : Point3D) :
    Except GeoErr (Option Point3D) :=
  (planeIsValid pl).bind fun valid =>
    if ¬ valid then Except.error GeoErr.valueError
    else
      Except.ok (line_plane_intersection
        (Line.mk point ⟨point.x + pl.normal.x, point.y + pl.normal.y,
          point.z + pl.normal.z⟩) pl)

/-- Vertex loop of `PolylineAddOn.project_onto_plane`: stop with `none` as
soon as one vertex fails to project. -/
def projectPoints (pl : Plane) : List Point3D → Except GeoErr (Option (List Point3D))
  | [] => Except.ok (some [])
  | p :: rest =>
      (project_point pl p).bind fun projected =>
        match projected with
        | none => Except.ok none
        | some q => (projectPoints pl rest).map (Option.map fun l => q :: l)

/-- Embedding of `PolylineAddOn.project_onto_plane`: validity checks (the
plane one raises `AttributeError`), then the vertex loop. -/
def project_onto_plane (p : Polyline) (pl : Plane) :
    Except GeoErr (Option Polyline) :=
  if ¬ p.is_valid then Except.error GeoErr.valueError
  else
    (planeIsValid pl).bind fun pvalid =>
      if ¬ pvalid then Except.error GeoErr.valueError
      else (projectPoints pl p.points).map (Option.map Polyline.mk)

/-- Embedding of `Point3DAddOn.project_onto_plane` (delegates to
`PlaneAddOn.project_point`). -/
def point3d_project_onto_plane (point : Point3D) (pl : Plane) :
    Except GeoErr (Option Point3D) :=
  project_point pl point

/-- Embedding of `CurveAddOn.try_get_polyline` on the `Polyline` branch of
its input union: a valid polyline is returned as-is; an invalid one raises
`ValueError`. -/
def try_get_polyline (curve : Polyline) :
    Except GeoErr (Bool × Option Polyline) :=
  if curve.is_valid then Except.ok (true, some curve)
  else Except.error GeoErr.valueError

/-- Embedding of `CurveAddOn.contains`: conversion, closedness test
(returning `UNSET` for open curves), then the two plane projections.  The
statement after the projections calls
`GeometryUtils.plane_to_plane_transform`, which does not exist in the
repository, so no later statement of the function (the bounding-box ray
construction and the ray-parity loop) is reachable for any input; the
continuation is the `AttributeError` of that access.  Note the function
performs no self-intersection check at all. -/
def contains (curve : Polyline) (point : Point3D) (plane : Plane)
    (tolerance : ℚ) : Except GeoErr PointContainment :=
  (try_get_polyline curve).bind fun res =>
    if ¬ res.1 ∨ res.2 = none then Except.error GeoErr.valueError
    else
      match res.2 with
      | none => Except.error GeoErr.valueError
      | some polyline =>
          if ¬ polyline.is_closed then Except.ok PointContainment.unset
          else
            (project_onto_plane polyline plane).bind fun projected =>
              match projected with
              | none => Except.ok PointContainment.unset
              | some _ =>
                  (point3d_project_onto_plane point plane).bind fun projP =>
                    match projP with
                    | none => Except.ok PointContainment.unset
                    | some _ => Except.error GeoErr.attributeError

/-- Claim C7 (code bug evidence): `contains` does return the `Unset`
containment value for a non-closed polyline, but it contains no
self-intersection check at all, and for every closed polyline — including
the plain convex square below, which does not self-intersect — it raises
`AttributeError` (the plane-projection helper reads the nonexistent
`Plane.is_valid`, and the subsequent transform helpers do not exist either),
so the ray-parity containment test is never reached. -/
theorem claim7_contains_behaviour :
    contains (Polyline.mk [⟨0,0,0⟩, ⟨1,0,0⟩, ⟨1,1,0⟩]) ⟨0,0,0⟩
        (Plane.mk ⟨0,0,0⟩ ⟨0,0,1⟩) (1 / 1000000) =
      Except.ok PointContainment.unset ∧
    contains (Polyline.mk [⟨0,0,0⟩, ⟨1,0,0⟩, ⟨1,1,0⟩, ⟨0,1,0⟩, ⟨0,0,0⟩])
        ⟨1/2, 1/2, 0⟩ (Plane.mk ⟨0,0,0⟩ ⟨0,0,1⟩) (1 / 1000000) =
      Except.error GeoErr.attributeError := by
  constructor
  · norm_num [contains, try_get_polyline, Polyline.is_valid,
      Polyline.is_closed, Except.bind]
    intro h
    simp at h
  · norm_num [contains, try_get_polyline, Polyline.is_valid,
      Polyline.is_closed, Point3D.distSq, List.getLastI,
      project_onto_plane, planeIsValid, Except.bind]
    intro h
    simp at h

end UrbanGen

namespace UrbanGen

/-! ## Dijkstra shortest paths (planning_api/algorithms/graph_algorithms.py)

The embedding follows `DijkstraShortestPaths` together with the
`MinPriorityQueue` and `GraphAdapter` classes it uses.  Python exceptions
are embedded in `Except`:

* the two `ValueError` guards of `__init__`;
* the `KeyError` of a `self._nodes_to_indices[...]` lookup on a vertex that
  is not in the vertex list;
* the `IndexError` that `MinPriorityQueue.dequeue_min` raises when the
  underlying heap holds only invalidated (stale) entries — note that
  `is_empty` counts stale heap entries, so the main loop keeps running on an
  all-stale heap and then hits this `IndexError`.

`float('inf')` is embedded as `⊤ : WithTop ℚ`.  The heap is embedded as the
multiset of its `[priority, counter, item]` entries with `item = none` for
entries invalidated by `update_priority` (Python sets the aliased list's
third cell to `None`); `heapq` pops the least entry in lexicographic order
of `(priority, counter)` — counters are unique, so the item cell is never
compared.  `_nodes_to_indices` maps a vertex to its index in the vertex
list (for duplicate-free vertex lists, Python's last-occurrence dict
comprehension and this first-occurrence lookup agree). -/

/-- Embedding of `Edge` (every `Edge` carries `from_vertex`, `to_vertex` and
`weight`; `GraphAdapter` and Dijkstra read nothing else, and since both
`Edge` and `DirectedEdge` expose `to_vertex`, the `hasattr` tests in the
source always take the directed branch). -/
structure GEdge where
  from_vertex : ℤ
  to_vertex : ℤ
  weight : ℚ
deriving DecidableEq, Repr

/-- Embedding of `GraphAdapter`. -/
structure GraphAdapter where
  vertices : List ℤ
  edges : List GEdge
deriving DecidableEq, Repr

/-- Embedding of `GraphAdapter.has_vertex`. -/
def GraphAdapter.has_vertex (g : GraphAdapter) (v : ℤ) : Prop :=
  v ∈ g.vertices

instance (g : GraphAdapter) (v : ℤ) : Decidable (g.has_vertex v) :=
  inferInstanceAs (Decidable (_ ∈ _))

/-- Embedding of `GraphAdapter.outgoing_edges`: the adjacency map files
every edge under its `from_vertex` (the `hasattr(edge, 'to_vertex')` test is
true for all edges), preserving edge order. -/
def GraphAdapter.outgoing_edges (g : GraphAdapter) (v : ℤ) : List GEdge :=
  g.edges.filter fun e => e.from_vertex = v

/-- Python exceptions raised by the Dijkstra path. -/
inductive GraphErr where
  | sourceMissing : GraphErr
  | negativeWeight : GraphErr
  | keyError : GraphErr
  | indexErrorQueueEmpty : GraphErr
  | vertexMissing : GraphErr
deriving DecidableEq, Repr

/-- Embedding of the `self._nodes_to_indices[v]` dictionary lookup: the
index of `v` in the vertex list, or `KeyError`. -/
def lookupIdx (g : GraphAdapter) (v : ℤ) : Except GraphErr ℕ :=
  match g.vertices.findIdx? (fun x => x = v) with
  | some i => Except.ok i
  | none => Except.error GraphErr.keyError

/-- One heap cell of `MinPriorityQueue`: `[priority, counter, item]`, with
`item = none` once `update_priority` has invalidated the entry. -/
abbrev HeapEntry := WithTop ℚ × ℕ × Option ℤ

/-- Lexicographic `heapq` order on `(priority, counter)` (counters are
unique, so Python never compares the item cells). -/
def heKeyLt (a b : HeapEntry) : Prop :=
  a.1 < b.1 ∨ (a.1 = b.1 ∧ a.2.1 < b.2.1)

instance (a b : HeapEntry) : Decidable (heKeyLt a b) :=
  inferInstanceAs (Decidable (_ ∨ _))

/-- Select the least heap entry (what a sequence of `heapq.heappop`s would
yield first), returning it together with the remaining entries. -/
def popMinHE : List HeapEntry → Option (HeapEntry × List HeapEntry)
  | [] => none
  | e :: es =>
      match popMinHE es with
      | none => some (e, [])
      | some (m, rest) =>
          if heKeyLt m e then some (m, e :: rest) else some (e, es)

theorem popMinHE_ne_none (a : HeapEntry) (es : List HeapEntry) :
    popMinHE (a :: es) ≠ none := by
  rw [popMinHE]
  split
  · simp
  · split <;> simp

theorem popMinHE_length :
    ∀ {l : List HeapEntry} {e : HeapEntry} {rest : List HeapEntry},
      popMinHE l = some (e, rest) → rest.length + 1 = l.length
  | [], e, rest, h => by simp [popMinHE] at h
  | a :: es, e, rest, h => by
      rw [popMinHE] at h
      split at h
      · next hes =>
        cases h
        cases es with
        | nil => rfl
        | cons b bs => exact absurd hes (popMinHE_ne_none b bs)
      · next m r hes =>
        split at h
        · cases h
          have := popMinHE_length hes
          simp only [List.length_cons]
          omega
        · cases h
          simp

/-- Embedding of `MinPriorityQueue`: the heap multiset, the live-entry map
(item to the counter of its live heap entry — Python stores the aliased
entry object itself), and the insertion counter. -/
structure MinPQ where
  heap : List HeapEntry
  entry_map : List (ℤ × ℕ)
  counter : ℕ
deriving DecidableEq, Repr

/-- Embedding of the `item in self._entry_map` dictionary lookup. -/
def pqLookup (m : List (ℤ × ℕ)) (item : ℤ) : Option ℕ :=
  (m.find? fun p => p.1 = item).map (·.2)

/-- Embedding of `MinPriorityQueue.is_empty`: tests the raw heap length —
stale entries count. -/
def MinPQ.is_empty (q : MinPQ) : Bool := q.heap.isEmpty

/-- Embedding of `MinPriorityQueue.update_priority`: invalidate the old
entry in place (`old_entry[2] = None`), push a fresh entry, remap the
item. -/
def MinPQ.update_priority (q : MinPQ) (item : ℤ) (priority : WithTop ℚ) :
    MinPQ :=
  match pqLookup q.entry_map item with
  | none => q
  | some cOld =>
      { heap := (q.heap.map fun e =>
            if e.2.1 = cOld then (e.1, e.2.1, none) else e) ++
          [(priority, q.counter, some item)],
        entry_map := (q.entry_map.filter fun p => p.1 ≠ item) ++
          [(item, q.counter)],
        counter := q.counter + 1 }

/-- Embedding of `MinPriorityQueue.enqueue`. -/
def MinPQ.enqueue (q : MinPQ) (item : ℤ) (priority : WithTop ℚ) : MinPQ :=
  if (pqLookup q.entry_map item).isSome then q.update_priority item priority
  else
    { heap := q.heap ++ [(priority, q.counter, some item)],
      entry_map := q.entry_map ++ [(item, q.counter)],
      counter := q.counter + 1 }

/-- Embedding of `MinPriorityQueue.contains` (entries reachable from the
map are always live, so the `is not None` conjunct always holds). -/
def MinPQ.contains (q : MinPQ) (item : ℤ) : Bool :=
  (pqLookup q.entry_map item).isSome

/-- Pop loop of `MinPriorityQueue.dequeue_min`: discard stale entries until
a live one surfaces; raise `IndexError` when the heap runs dry.  The fuel
argument (instantiated with the heap length, which strictly bounds the
number of pops) only makes the recursion structural; the zero-fuel case
coincides with the empty-heap `IndexError` and is unreachable from
`dequeue_min`. -/
def dequeueAux : ℕ → List HeapEntry → List (ℤ × ℕ) →
    Except GraphErr (ℤ × List HeapEntry × List (ℤ × ℕ))
  | 0, _, _ => Except.error GraphErr.indexErrorQueueEmpty
  | fuel + 1, heap, emap =>
      match popMinHE heap with
      | none => Except.error GraphErr.indexErrorQueueEmpty
      | some (e, rest) =>
          match e.2.2 with
          | some item => Except.ok (item, rest, emap.filter fun p => p.1 ≠ item)
          | none => dequeueAux fuel rest emap

/-- Embedding of `MinPriorityQueue.dequeue_min`. -/
def MinPQ.dequeue_min (q : MinPQ) : Except GraphErr (ℤ × MinPQ) :=
  (dequeueAux q.heap.length q.heap q.entry_map).map fun r =>
    (r.1, ⟨r.2.1, r.2.2, q.counter⟩)

/-- Mutable state of `DijkstraShortestPaths`: the index-addressed distance
and predecessor arrays and the priority queue.  `⊤` embeds `INFINITY`;
`-1` is `NONE_PREDECESSOR`. -/
structure DState where
  distances : List (WithTop ℚ)
  predecessors : List ℤ
  pq : MinPQ
deriving DecidableEq, Repr

/-- Body of the edge loop of `DijkstraShortestPaths._dijkstra`: compute the
tentative distance through the current vertex and relax the adjacent
vertex. -/
def relaxEdge (g : GraphAdapter) (ci : ℕ) (st : DState) (e : GEdge) :
    Except GraphErr DState :=
  (lookupIdx g e.to_vertex).bind fun ai =>
    let delta : WithTop ℚ :=
      if st.distances.getD ci ⊤ ≠ ⊤ then
        st.distances.getD ci ⊤ + (e.weight : WithTop ℚ)
      else ⊤
    if delta < st.distances.getD ai ⊤ then
      Except.ok
        { distances := st.distances.set ai delta,
          predecessors := st.predecessors.set ai (ci : ℤ),
          pq :=
            if st.pq.contains e.to_vertex then
              st.pq.update_priority e.to_vertex delta
            else st.pq.enqueue e.to_vertex delta }
    else Except.ok st

/-- One iteration of the `while not ... is_empty()` loop of `_dijkstra`:
dequeue the minimum, look its index up, relax all outgoing edges. -/
def dijkstraStep (g : GraphAdapter) (st : DState) : Except GraphErr DState :=
  (st.pq.dequeue_min).bind fun res =>
    (lookupIdx g res.1).bind fun ci =>
      (g.outgoing_edges res.1).foldlM
        (relaxEdge g ci) { st with pq := res.2 }

/-- The `_dijkstra` main loop, fuelled.  Iterations are bounded by the
number of vertices plus one: after the negative-weight guard of the
constructor all weights are non-negative, so a vertex dequeued with minimal
key is never re-relaxed and each vertex is dequeued at most once, and at
most one further iteration can end in the stale-heap `IndexError`. -/
def dijkstraLoop (g : GraphAdapter) : ℕ → DState → Except GraphErr DState
  | 0, st => Except.ok st
  | fuel + 1, st =>
      if st.pq.is_empty then Except.ok st
      else (dijkstraStep g st).bind (dijkstraLoop g fuel)

/-- Embedding of the `DijkstraShortestPaths` constructor: the two
`ValueError` guards, `_initialize` (source distance 0, source enqueued with
priority 0), then the `_dijkstra` loop. -/
def dijkstraConstruct (g : GraphAdapter) (source : ℤ) :
    Except GraphErr DState :=
  if ¬ g.has_vertex source then Except.error GraphErr.sourceMissing
  else if g.edges.any (fun e => decide (e.weight < 0)) then
    Except.error GraphErr.negativeWeight
  else
    (lookupIdx g source).bind fun si =>
      let n := g.vertices.length
      dijkstraLoop g (n + 1)
        { distances := (List.replicate n (⊤ : WithTop ℚ)).set si 0,
          predecessors := List.replicate n (-1),
          pq := (MinPQ.mk [] [] 0).enqueue source 0 }


/-! Helper reductions for the `Except` monad, used to evaluate the embedded
Dijkstra construction on concrete graphs. -/

theorem ebind_ok {α β : Type} (a : α) (f : α → Except GraphErr β) :
    Except.bind (Except.ok a) f = f a := rfl

theorem ebind_err {α β : Type} (e : GraphErr) (f : α → Except GraphErr β) :
    Except.bind (Except.error e : Except GraphErr α) f = Except.error e := rfl

theorem mbind_ok {α β : Type} (a : α) (f : α → Except GraphErr β) :
    ((Except.ok a : Except GraphErr α) >>= f) = f a := rfl

theorem mbind_err {α β : Type} (e : GraphErr) (f : α → Except GraphErr β) :
    ((Except.error e : Except GraphErr α) >>= f) = Except.error e := rfl

theorem mpure_eq {α : Type} (a : α) :
    (pure a : Except GraphErr α) = Except.ok a := rfl

/-- One unfolding of the fuelled `_dijkstra` loop. -/
theorem dijkstraLoop_succ (g : GraphAdapter) (n : ℕ) (st : DState) :
    dijkstraLoop g (n + 1) st =
      if st.pq.is_empty then Except.ok st
      else Except.bind (dijkstraStep g st) (dijkstraLoop g n) := rfl

/-- The first three-vertex example graph (vertices 0, 1, 2; directed
edges 0→1 weight 10, 0→2 weight 1, 2→1 weight 1; all weights positive,
vertex 1 cheaper through 2). -/
def exGraph1 : GraphAdapter :=
  ⟨[0, 1, 2], [⟨0, 1, 10⟩, ⟨0, 2, 1⟩, ⟨2, 1, 1⟩]⟩

/-- First loop iteration on `exGraph1`: vertex 0 is dequeued and both of its
edges relax, enqueueing vertices 1 and 2. -/
theorem dijEx1_step1 :
    dijkstraStep exGraph1
      ⟨[((0:ℚ) : WithTop ℚ), ⊤, ⊤], [-1, -1, -1], ⟨[(((0:ℚ) : WithTop ℚ), 0, some 0)], [(0, 0)], 1⟩⟩ =
    Except.ok
      ⟨[((0:ℚ) : WithTop ℚ), ((10:ℚ) : WithTop ℚ), ((1:ℚ) : WithTop ℚ)], [-1, 0, 0], ⟨[(((10:ℚ) : WithTop ℚ), 1, some 1), (((1:ℚ) : WithTop ℚ), 2, some 2)], [(1, 1), (2, 2)], 3⟩⟩ := by
  have hr1 : relaxEdge exGraph1 0
      ⟨[((0:ℚ) : WithTop ℚ), ⊤, ⊤], [-1, -1, -1], ⟨[], [], 1⟩⟩ ⟨0, 1, 10⟩ =
      Except.ok
        ⟨[((0:ℚ) : WithTop ℚ), ((10:ℚ) : WithTop ℚ), ⊤], [-1, 0, -1], ⟨[(((10:ℚ) : WithTop ℚ), 1, some 1)], [(1, 1)], 2⟩⟩ := by
    have a1 : ((0:ℚ) : WithTop ℚ) + ((10:ℚ) : WithTop ℚ) = ((10:ℚ) : WithTop ℚ) := by
      rw [← WithTop.coe_add]; norm_num
    have d0 : List.getD ([((0:ℚ) : WithTop ℚ), ⊤, ⊤]) 0 ⊤ = ((0:ℚ) : WithTop ℚ) := rfl
    have d1 : List.getD ([((0:ℚ) : WithTop ℚ), ⊤, ⊤]) 1 ⊤ = ⊤ := rfl
    have s1 : List.set ([((0:ℚ) : WithTop ℚ), ⊤, ⊤]) 1 ((10:ℚ) : WithTop ℚ)
        = [((0:ℚ) : WithTop ℚ), ((10:ℚ) : WithTop ℚ), ⊤] := rfl
    have s2 : List.set ([(-1 : ℤ), -1, -1]) 1 ((0 : ℕ) : ℤ) = [-1, 0, -1] := rfl
    have L1 : lookupIdx exGraph1 1 = Except.ok 1 := rfl
    have ct : MinPQ.contains ⟨[], [], 1⟩ 1 = false := rfl
    have en : MinPQ.enqueue ⟨[], [], 1⟩ 1 ((10:ℚ) : WithTop ℚ)
        = ⟨[(((10:ℚ) : WithTop ℚ), 1, some 1)], [(1, 1)], 2⟩ := rfl
    have c1 : ¬ (((0:ℚ) : WithTop ℚ) = ⊤) := by decide
    have c2 : (((10:ℚ) : WithTop ℚ) < (⊤ : WithTop ℚ)) := by decide
    simp only [relaxEdge, L1, Except.bind, d0, d1, c1, a1, c2, s1, s2, ct, en, ne_eq, not_false_eq_true, eq_self_iff_true, if_true, Bool.false_eq_true, if_false]
  have hr2 : relaxEdge exGraph1 0
      ⟨[((0:ℚ) : WithTop ℚ), ((10:ℚ) : WithTop ℚ), ⊤], [-1, 0, -1], ⟨[(((10:ℚ) : WithTop ℚ), 1, some 1)], [(1, 1)], 2⟩⟩ ⟨0, 2, 1⟩ =
      Except.ok
        ⟨[((0:ℚ) : WithTop ℚ), ((10:ℚ) : WithTop ℚ), ((1:ℚ) : WithTop ℚ)], [-1, 0, 0], ⟨[(((10:ℚ) : WithTop ℚ), 1, some 1), (((1:ℚ) : WithTop ℚ), 2, some 2)], [(1, 1), (2, 2)], 3⟩⟩ := by
    have a1 : ((0:ℚ) : WithTop ℚ) + ((1:ℚ) : WithTop ℚ) = ((1:ℚ) : WithTop ℚ) := by
      rw [← WithTop.coe_add]; norm_num
    have d0 : List.getD ([((0:ℚ) : WithTop ℚ), ((10:ℚ) : WithTop ℚ), ⊤]) 0 ⊤ = ((0:ℚ) : WithTop ℚ) := rfl
    have d2 : List.getD ([((0:ℚ) : WithTop ℚ), ((10:ℚ) : WithTop ℚ), ⊤]) 2 ⊤ = ⊤ := rfl
    have s1 : List.set ([((0:ℚ) : WithTop ℚ), ((10:ℚ) : WithTop ℚ), ⊤]) 2 ((1:ℚ) : WithTop ℚ)
        = [((0:ℚ) : WithTop ℚ), ((10:ℚ) : WithTop ℚ), ((1:ℚ) : WithTop ℚ)] := rfl
    have s2 : List.set ([(-1 : ℤ), 0, -1]) 2 ((0 : ℕ) : ℤ) = [-1, 0, 0] := rfl
    have L2 : lookupIdx exGraph1 2 = Except.ok 2 := rfl
    have ct : MinPQ.contains ⟨[(((10:ℚ) : WithTop ℚ), 1, some 1)], [(1, 1)], 2⟩ 2 = false := rfl
    have en : MinPQ.enqueue ⟨[(((10:ℚ) : WithTop ℚ), 1, some 1)], [(1, 1)], 2⟩ 2 ((1:ℚ) : WithTop ℚ)
        = ⟨[(((10:ℚ) : WithTop ℚ), 1, some 1), (((1:ℚ) : WithTop ℚ), 2, some 2)], [(1, 1), (2, 2)], 3⟩ := rfl
    have c1 : ¬ (((0:ℚ) : WithTop ℚ) = ⊤) := by decide
    have c2 : (((1:ℚ) : WithTop ℚ) < (⊤ : WithTop ℚ)) := by decide
    simp only [relaxEdge, L2, Except.bind, d0, d2, c1, a1, c2, s1, s2, ct, en, ne_eq, not_false_eq_true, eq_self_iff_true, if_true, Bool.false_eq_true, if_false]
  have dq : MinPQ.dequeue_min ⟨[(((0:ℚ) : WithTop ℚ), 0, some 0)], [(0, 0)], 1⟩ =
      Except.ok (0, ⟨[], [], 1⟩) := rfl
  have L0 : lookupIdx exGraph1 0 = Except.ok 0 := rfl
  have og : GraphAdapter.outgoing_edges exGraph1 0 = [⟨0, 1, 10⟩, ⟨0, 2, 1⟩] := rfl
  simp only [dijkstraStep, dq, ebind_ok, L0, og, List.foldlM, hr1, hr2,
    mbind_ok, mpure_eq]

/-- Second loop iteration on `exGraph1`: vertex 2 is dequeued and the edge
2→1 relaxes, lowering the key of vertex 1 in place: `update_priority`
invalidates the old heap entry for vertex 1 and pushes a fresh one, so the
heap now holds a stale cell. -/
theorem dijEx1_step2 :
    dijkstraStep exGraph1
      ⟨[((0:ℚ) : WithTop ℚ), ((10:ℚ) : WithTop ℚ), ((1:ℚ) : WithTop ℚ)], [-1, 0, 0], ⟨[(((10:ℚ) : WithTop ℚ), 1, some 1), (((1:ℚ) : WithTop ℚ), 2, some 2)], [(1, 1), (2, 2)], 3⟩⟩ =
    Except.ok
      ⟨[((0:ℚ) : WithTop ℚ), ((2:ℚ) : WithTop ℚ), ((1:ℚ) : WithTop ℚ)], [-1, 2, 0], ⟨[(((10:ℚ) : WithTop ℚ), 1, none), (((2:ℚ) : WithTop ℚ), 3, some 1)], [(1, 3)], 4⟩⟩ := by
  have hr3 : relaxEdge exGraph1 2
      ⟨[((0:ℚ) : WithTop ℚ), ((10:ℚ) : WithTop ℚ), ((1:ℚ) : WithTop ℚ)], [-1, 0, 0], ⟨[(((10:ℚ) : WithTop ℚ), 1, some 1)], [(1, 1)], 3⟩⟩ ⟨2, 1, 1⟩ =
      Except.ok
        ⟨[((0:ℚ) : WithTop ℚ), ((2:ℚ) : WithTop ℚ), ((1:ℚ) : WithTop ℚ)], [-1, 2, 0], ⟨[(((10:ℚ) : WithTop ℚ), 1, none), (((2:ℚ) : WithTop ℚ), 3, some 1)], [(1, 3)], 4⟩⟩ := by
    have a1 : ((1:ℚ) : WithTop ℚ) + ((1:ℚ) : WithTop ℚ) = ((2:ℚ) : WithTop ℚ) := by
      rw [← WithTop.coe_add]; norm_num
    have d2 : List.getD ([((0:ℚ) : WithTop ℚ), ((10:ℚ) : WithTop ℚ), ((1:ℚ) : WithTop ℚ)]) 2 ⊤ = ((1:ℚ) : WithTop ℚ) := rfl
    have d1 : List.getD ([((0:ℚ) : WithTop ℚ), ((10:ℚ) : WithTop ℚ), ((1:ℚ) : WithTop ℚ)]) 1 ⊤ = ((10:ℚ) : WithTop ℚ) := rfl
    have s1 : List.set ([((0:ℚ) : WithTop ℚ), ((10:ℚ) : WithTop ℚ), ((1:ℚ) : WithTop ℚ)]) 1 ((2:ℚ) : WithTop ℚ)
        = [((0:ℚ) : WithTop ℚ), ((2:ℚ) : WithTop ℚ), ((1:ℚ) : WithTop ℚ)] := rfl
    have s2 : List.set ([(-1 : ℤ), 0, 0]) 1 ((2 : ℕ) : ℤ) = [-1, 2, 0] := rfl
    have L1 : lookupIdx exGraph1 1 = Except.ok 1 := rfl
    have ct : MinPQ.contains ⟨[(((10:ℚ) : WithTop ℚ), 1, some 1)], [(1, 1)], 3⟩ 1 = true := rfl
    have up : MinPQ.update_priority ⟨[(((10:ℚ) : WithTop ℚ), 1, some 1)], [(1, 1)], 3⟩ 1 ((2:ℚ) : WithTop ℚ)
        = ⟨[(((10:ℚ) : WithTop ℚ), 1, none), (((2:ℚ) : WithTop ℚ), 3, some 1)], [(1, 3)], 4⟩ := rfl
    have c1 : ¬ (((1:ℚ) : WithTop ℚ) = ⊤) := by decide
    have c2 : (((2:ℚ) : WithTop ℚ) < ((10:ℚ) : WithTop ℚ)) := by decide
    simp only [relaxEdge, L1, Except.bind, d2, d1, c1, a1, c2, s1, s2, ct, up, ne_eq, not_false_eq_true, eq_self_iff_true, if_true, Bool.false_eq_true, if_false]
  have dq : MinPQ.dequeue_min
      ⟨[(((10:ℚ) : WithTop ℚ), 1, some 1), (((1:ℚ) : WithTop ℚ), 2, some 2)], [(1, 1), (2, 2)], 3⟩ =
      Except.ok (2, ⟨[(((10:ℚ) : WithTop ℚ), 1, some 1)], [(1, 1)], 3⟩) := rfl
  have L2 : lookupIdx exGraph1 2 = Except.ok 2 := rfl
  have og : GraphAdapter.outgoing_edges exGraph1 2 = [⟨2, 1, 1⟩] := rfl
  simp only [dijkstraStep, dq, ebind_ok, L2, og, List.foldlM, hr3,
    mbind_ok, mpure_eq]

/-- Third loop iteration on `exGraph1`: vertex 1 is dequeued (its live entry
wins), it has no outgoing edges, and only the stale heap cell remains. -/
theorem dijEx1_step3 :
    dijkstraStep exGraph1
      ⟨[((0:ℚ) : WithTop ℚ), ((2:ℚ) : WithTop ℚ), ((1:ℚ) : WithTop ℚ)], [-1, 2, 0], ⟨[(((10:ℚ) : WithTop ℚ), 1, none), (((2:ℚ) : WithTop ℚ), 3, some 1)], [(1, 3)], 4⟩⟩ =
    Except.ok
      ⟨[((0:ℚ) : WithTop ℚ), ((2:ℚ) : WithTop ℚ), ((1:ℚ) : WithTop ℚ)], [-1, 2, 0], ⟨[(((10:ℚ) : WithTop ℚ), 1, none)], [], 4⟩⟩ := by
  have dq : MinPQ.dequeue_min
      ⟨[(((10:ℚ) : WithTop ℚ), 1, none), (((2:ℚ) : WithTop ℚ), 3, some 1)], [(1, 3)], 4⟩ =
      Except.ok (1, ⟨[(((10:ℚ) : WithTop ℚ), 1, none)], [], 4⟩) := rfl
  have L1 : lookupIdx exGraph1 1 = Except.ok 1 := rfl
  have og : GraphAdapter.outgoing_edges exGraph1 1 = [] := rfl
  simp only [dijkstraStep, dq, ebind_ok, L1, og, List.foldlM, mpure_eq]

/-- Fourth loop iteration on `exGraph1`: the heap holds only the invalidated
entry for vertex 1, `is_empty` still reports a non-empty queue, and
`dequeue_min` pops the stale cell and then underflows: `IndexError`. -/
theorem dijEx1_step4 :
    dijkstraStep exGraph1
      ⟨[((0:ℚ) : WithTop ℚ), ((2:ℚ) : WithTop ℚ), ((1:ℚ) : WithTop ℚ)], [-1, 2, 0], ⟨[(((10:ℚ) : WithTop ℚ), 1, none)], [], 4⟩⟩ =
    Except.error GraphErr.indexErrorQueueEmpty := by
  have dq : MinPQ.dequeue_min ⟨[(((10:ℚ) : WithTop ℚ), 1, none)], [], 4⟩ =
      Except.error GraphErr.indexErrorQueueEmpty := rfl
  simp only [dijkstraStep, dq, ebind_err]

/-- The whole embedded construction on `exGraph1`: both `ValueError` guards
pass, and the main loop crashes with the stale-heap `IndexError` on its
fourth iteration. -/
theorem dijEx1_construct :
    dijkstraConstruct exGraph1 0 = Except.error GraphErr.indexErrorQueueEmpty := by
  have hv : ¬ ¬ GraphAdapter.has_vertex exGraph1 0 := by decide
  have hw : (exGraph1.edges.any fun e => decide (e.weight < 0)) = false := rfl
  have L0 : lookupIdx exGraph1 0 = Except.ok 0 := rfl
  simp only [dijkstraConstruct, if_neg hv, hw, Bool.false_eq_true, if_false,
    L0, ebind_ok]
  show dijkstraLoop exGraph1 (3 + 1)
      ⟨[((0:ℚ) : WithTop ℚ), ⊤, ⊤], [-1, -1, -1], ⟨[(((0:ℚ) : WithTop ℚ), 0, some 0)], [(0, 0)], 1⟩⟩ = Except.error GraphErr.indexErrorQueueEmpty
  rw [dijkstraLoop_succ, if_neg (by decide), dijEx1_step1, ebind_ok]
  show dijkstraLoop exGraph1 (2 + 1)
      ⟨[((0:ℚ) : WithTop ℚ), ((10:ℚ) : WithTop ℚ), ((1:ℚ) : WithTop ℚ)], [-1, 0, 0], ⟨[(((10:ℚ) : WithTop ℚ), 1, some 1), (((1:ℚ) : WithTop ℚ), 2, some 2)], [(1, 1), (2, 2)], 3⟩⟩ = Except.error GraphErr.indexErrorQueueEmpty
  rw [dijkstraLoop_succ, if_neg (by decide), dijEx1_step2, ebind_ok]
  show dijkstraLoop exGraph1 (1 + 1)
      ⟨[((0:ℚ) : WithTop ℚ), ((2:ℚ) : WithTop ℚ), ((1:ℚ) : WithTop ℚ)], [-1, 2, 0], ⟨[(((10:ℚ) : WithTop ℚ), 1, none), (((2:ℚ) : WithTop ℚ), 3, some 1)], [(1, 3)], 4⟩⟩ = Except.error GraphErr.indexErrorQueueEmpty
  rw [dijkstraLoop_succ, if_neg (by decide), dijEx1_step3, ebind_ok]
  show dijkstraLoop exGraph1 (0 + 1)
      ⟨[((0:ℚ) : WithTop ℚ), ((2:ℚ) : WithTop ℚ), ((1:ℚ) : WithTop ℚ)], [-1, 2, 0], ⟨[(((10:ℚ) : WithTop ℚ), 1, none)], [], 4⟩⟩ = Except.error GraphErr.indexErrorQueueEmpty
  rw [dijkstraLoop_succ, if_neg (by decide), dijEx1_step4, ebind_err]

/-- The second three-vertex example graph (vertices 0, 1, 2; directed
edges 0→1 weight 20, 0→2 weight 2, 2→1 weight 3; all weights positive,
vertex 1 cheaper through 2). -/
def exGraph2 : GraphAdapter :=
  ⟨[0, 1, 2], [⟨0, 1, 20⟩, ⟨0, 2, 2⟩, ⟨2, 1, 3⟩]⟩

/-- First loop iteration on `exGraph2`: vertex 0 is dequeued and both of its
edges relax, enqueueing vertices 1 and 2. -/
theorem dijEx2_step1 :
    dijkstraStep exGraph2
      ⟨[((0:ℚ) : WithTop ℚ), ⊤, ⊤], [-1, -1, -1], ⟨[(((0:ℚ) : WithTop ℚ), 0, some 0)], [(0, 0)], 1⟩⟩ =
    Except.ok
      ⟨[((0:ℚ) : WithTop ℚ), ((20:ℚ) : WithTop ℚ), ((2:ℚ) : WithTop ℚ)], [-1, 0, 0], ⟨[(((20:ℚ) : WithTop ℚ), 1, some 1), (((2:ℚ) : WithTop ℚ), 2, some 2)], [(1, 1), (2, 2)], 3⟩⟩ := by
  have hr1 : relaxEdge exGraph2 0
      ⟨[((0:ℚ) : WithTop ℚ), ⊤, ⊤], [-1, -1, -1], ⟨[], [], 1⟩⟩ ⟨0, 1, 20⟩ =
      Except.ok
        ⟨[((0:ℚ) : WithTop ℚ), ((20:ℚ) : WithTop ℚ), ⊤], [-1, 0, -1], ⟨[(((20:ℚ) : WithTop ℚ), 1, some 1)], [(1, 1)], 2⟩⟩ := by
    have a1 : ((0:ℚ) : WithTop ℚ) + ((20:ℚ) : WithTop ℚ) = ((20:ℚ) : WithTop ℚ) := by
      rw [← WithTop.coe_add]; norm_num
    have d0 : List.getD ([((0:ℚ) : WithTop ℚ), ⊤, ⊤]) 0 ⊤ = ((0:ℚ) : WithTop ℚ) := rfl
    have d1 : List.getD ([((0:ℚ) : WithTop ℚ), ⊤, ⊤]) 1 ⊤ = ⊤ := rfl
    have s1 : List.set ([((0:ℚ) : WithTop ℚ), ⊤, ⊤]) 1 ((20:ℚ) : WithTop ℚ)
        = [((0:ℚ) : WithTop ℚ), ((20:ℚ) : WithTop ℚ), ⊤] := rfl
    have s2 : List.set ([(-1 : ℤ), -1, -1]) 1 ((0 : ℕ) : ℤ) = [-1, 0, -1] := rfl
    have L1 : lookupIdx exGraph2 1 = Except.ok 1 := rfl
    have ct : MinPQ.contains ⟨[], [], 1⟩ 1 = false := rfl
    have en : MinPQ.enqueue ⟨[], [], 1⟩ 1 ((20:ℚ) : WithTop ℚ)
        = ⟨[(((20:ℚ) : WithTop ℚ), 1, some 1)], [(1, 1)], 2⟩ := rfl
    have c1 : ¬ (((0:ℚ) : WithTop ℚ) = ⊤) := by decide
    have c2 : (((20:ℚ) : WithTop ℚ) < (⊤ : WithTop ℚ)) := by decide
    simp only [relaxEdge, L1, Except.bind, d0, d1, c1, a1, c2, s1, s2, ct, en, ne_eq, not_false_eq_true, eq_self_iff_true, if_true, Bool.false_eq_true, if_false]
  have hr2 : relaxEdge exGraph2 0
      ⟨[((0:ℚ) : WithTop ℚ), ((20:ℚ) : WithTop ℚ), ⊤], [-1, 0, -1], ⟨[(((20:ℚ) : WithTop ℚ), 1, some 1)], [(1, 1)], 2⟩⟩ ⟨0, 2, 2⟩ =
      Except.ok
        ⟨[((0:ℚ) : WithTop ℚ), ((20:ℚ) : WithTop ℚ), ((2:ℚ) : WithTop ℚ)], [-1, 0, 0], ⟨[(((20:ℚ) : WithTop ℚ), 1, some 1), (((2:ℚ) : WithTop ℚ), 2, some 2)], [(1, 1), (2, 2)], 3⟩⟩ := by
    have a1 : ((0:ℚ) : WithTop ℚ) + ((2:ℚ) : WithTop ℚ) = ((2:ℚ) : WithTop ℚ) := by
      rw [← WithTop.coe_add]; norm_num
    have d0 : List.getD ([((0:ℚ) : WithTop ℚ), ((20:ℚ) : WithTop ℚ), ⊤]) 0 ⊤ = ((0:ℚ) : WithTop ℚ) := rfl
    have d2 : List.getD ([((0:ℚ) : WithTop ℚ), ((20:ℚ) : WithTop ℚ), ⊤]) 2 ⊤ = ⊤ := rfl
    have s1 : List.set ([((0:ℚ) : WithTop ℚ), ((20:ℚ) : WithTop ℚ), ⊤]) 2 ((2:ℚ) : WithTop ℚ)
        = [((0:ℚ) : WithTop ℚ), ((20:ℚ) : WithTop ℚ), ((2:ℚ) : WithTop ℚ)] := rfl
    have s2 : List.set ([(-1 : ℤ), 0, -1]) 2 ((0 : ℕ) : ℤ) = [-1, 0, 0] := rfl
    have L2 : lookupIdx exGraph2 2 = Except.ok 2 := rfl
    have ct : MinPQ.contains ⟨[(((20:ℚ) : WithTop ℚ), 1, some 1)], [(1, 1)], 2⟩ 2 = false := rfl
    have en : MinPQ.enqueue ⟨[(((20:ℚ) : WithTop ℚ), 1, some 1)], [(1, 1)], 2⟩ 2 ((2:ℚ) : WithTop ℚ)
        = ⟨[(((20:ℚ) : WithTop ℚ), 1, some 1), (((2:ℚ) : WithTop ℚ), 2, some 2)], [(1, 1), (2, 2)], 3⟩ := rfl
    have c1 : ¬ (((0:ℚ) : WithTop ℚ) = ⊤) := by decide
    have c2 : (((2:ℚ) : WithTop ℚ) < (⊤ : WithTop ℚ)) := by decide
    simp only [relaxEdge, L2, Except.bind, d0, d2, c1, a1, c2, s1, s2, ct, en, ne_eq, not_false_eq_true, eq_self_iff_true, if_true, Bool.false_eq_true, if_false]
  have dq : MinPQ.dequeue_min ⟨[(((0:ℚ) : WithTop ℚ), 0, some 0)], [(0, 0)], 1⟩ =
      Except.ok (0, ⟨[], [], 1⟩) := rfl
  have L0 : lookupIdx exGraph2 0 = Except.ok 0 := rfl
  have og : GraphAdapter.outgoing_edges exGraph2 0 = [⟨0, 1, 20⟩, ⟨0, 2, 2⟩] := rfl
  simp only [dijkstraStep, dq, ebind_ok, L0, og, List.foldlM, hr1, hr2,
    mbind_ok, mpure_eq]

/-- Second loop iteration on `exGraph2`: vertex 2 is dequeued and the edge
2→1 relaxes, lowering the key of vertex 1 in place: `update_priority`
invalidates the old heap entry for vertex 1 and pushes a fresh one, so the
heap now holds a stale cell. -/
theorem dijEx2_step2 :
    dijkstraStep exGraph2
      ⟨[((0:ℚ) : WithTop ℚ), ((20:ℚ) : WithTop ℚ), ((2:ℚ) : WithTop ℚ)], [-1, 0, 0], ⟨[(((20:ℚ) : WithTop ℚ), 1, some 1), (((2:ℚ) : WithTop ℚ), 2, some 2)], [(1, 1), (2, 2)], 3⟩⟩ =
    Except.ok
      ⟨[((0:ℚ) : WithTop ℚ), ((5:ℚ) : WithTop ℚ), ((2:ℚ) : WithTop ℚ)], [-1, 2, 0], ⟨[(((20:ℚ) : WithTop ℚ), 1, none), (((5:ℚ) : WithTop ℚ), 3, some 1)], [(1, 3)], 4⟩⟩ := by
  have hr3 : relaxEdge exGraph2 2
      ⟨[((0:ℚ) : WithTop ℚ), ((20:ℚ) : WithTop ℚ), ((2:ℚ) : WithTop ℚ)], [-1, 0, 0], ⟨[(((20:ℚ) : WithTop ℚ), 1, some 1)], [(1, 1)], 3⟩⟩ ⟨2, 1, 3⟩ =
      Except.ok
        ⟨[((0:ℚ) : WithTop ℚ), ((5:ℚ) : WithTop ℚ), ((2:ℚ) : WithTop ℚ)], [-1, 2, 0], ⟨[(((20:ℚ) : WithTop ℚ), 1, none), (((5:ℚ) : WithTop ℚ), 3, some 1)], [(1, 3)], 4⟩⟩ := by
    have a1 : ((2:ℚ) : WithTop ℚ) + ((3:ℚ) : WithTop ℚ) = ((5:ℚ) : WithTop ℚ) := by
      rw [← WithTop.coe_add]; norm_num
    have d2 : List.getD ([((0:ℚ) : WithTop ℚ), ((20:ℚ) : WithTop ℚ), ((2:ℚ) : WithTop ℚ)]) 2 ⊤ = ((2:ℚ) : WithTop ℚ) := rfl
    have d1 : List.getD ([((0:ℚ) : WithTop ℚ), ((20:ℚ) : WithTop ℚ), ((2:ℚ) : WithTop ℚ)]) 1 ⊤ = ((20:ℚ) : WithTop ℚ) := rfl
    have s1 : List.set ([((0:ℚ) : WithTop ℚ), ((20:ℚ) : WithTop ℚ), ((2:ℚ) : WithTop ℚ)]) 1 ((5:ℚ) : WithTop ℚ)
        = [((0:ℚ) : WithTop ℚ), ((5:ℚ) : WithTop ℚ), ((2:ℚ) : WithTop ℚ)] := rfl
    have s2 : List.set ([(-1 : ℤ), 0, 0]) 1 ((2 : ℕ) : ℤ) = [-1, 2, 0] := rfl
    have L1 : lookupIdx exGraph2 1 = Except.ok 1 := rfl
    have ct : MinPQ.contains ⟨[(((20:ℚ) : WithTop ℚ), 1, some 1)], [(1, 1)], 3⟩ 1 = true := rfl
    have up : MinPQ.update_priority ⟨[(((20:ℚ) : WithTop ℚ), 1, some 1)], [(1, 1)], 3⟩ 1 ((5:ℚ) : WithTop ℚ)
        = ⟨[(((20:ℚ) : WithTop ℚ), 1, none), (((5:ℚ) : WithTop ℚ), 3, some 1)], [(1, 3)], 4⟩ := rfl
    have c1 : ¬ (((2:ℚ) : WithTop ℚ) = ⊤) := by decide
    have c2 : (((5:ℚ) : WithTop ℚ) < ((20:ℚ) : WithTop ℚ)) := by decide
    simp only [relaxEdge, L1, Except.bind, d2, d1, c1, a1, c2, s1, s2, ct, up, ne_eq, not_false_eq_true, eq_self_iff_true, if_true, Bool.false_eq_true, if_false]
  have dq : MinPQ.dequeue_min
      ⟨[(((20:ℚ) : WithTop ℚ), 1, some 1), (((2:ℚ) : WithTop ℚ), 2, some 2)], [(1, 1), (2, 2)], 3⟩ =
      Except.ok (2, ⟨[(((20:ℚ) : WithTop ℚ), 1, some 1)], [(1, 1)], 3⟩) := rfl
  have L2 : lookupIdx exGraph2 2 = Except.ok 2 := rfl
  have og : GraphAdapter.outgoing_edges exGraph2 2 = [⟨2, 1, 3⟩] := rfl
  simp only [dijkstraStep, dq, ebind_ok, L2, og, List.foldlM, hr3,
    mbind_ok, mpure_eq]

/-- Third loop iteration on `exGraph2`: vertex 1 is dequeued (its live entry
wins), it has no outgoing edges, and only the stale heap cell remains. -/
theorem dijEx2_step3 :
    dijkstraStep exGraph2
      ⟨[((0:ℚ) : WithTop ℚ), ((5:ℚ) : WithTop ℚ), ((2:ℚ) : WithTop ℚ)], [-1, 2, 0], ⟨[(((20:ℚ) : WithTop ℚ), 1, none), (((5:ℚ) : WithTop ℚ), 3, some 1)], [(1, 3)], 4⟩⟩ =
    Except.ok
      ⟨[((0:ℚ) : WithTop ℚ), ((5:ℚ) : WithTop ℚ), ((2:ℚ) : WithTop ℚ)], [-1, 2, 0], ⟨[(((20:ℚ) : WithTop ℚ), 1, none)], [], 4⟩⟩ := by
  have dq : MinPQ.dequeue_min
      ⟨[(((20:ℚ) : WithTop ℚ), 1, none), (((5:ℚ) : WithTop ℚ), 3, some 1)], [(1, 3)], 4⟩ =
      Except.ok (1, ⟨[(((20:ℚ) : WithTop ℚ), 1, none)], [], 4⟩) := rfl
  have L1 : lookupIdx exGraph2 1 = Except.ok 1 := rfl
  have og : GraphAdapter.outgoing_edges exGraph2 1 = [] := rfl
  simp only [dijkstraStep, dq, ebind_ok, L1, og, List.foldlM, mpure_eq]

/-- Fourth loop iteration on `exGraph2`: the heap holds only the invalidated
entry for vertex 1, `is_empty` still reports a non-empty queue, and
`dequeue_min` pops the stale cell and then underflows: `IndexError`. -/
theorem dijEx2_step4 :
    dijkstraStep exGraph2
      ⟨[((0:ℚ) : WithTop ℚ), ((5:ℚ) : WithTop ℚ), ((2:ℚ) : WithTop ℚ)], [-1, 2, 0], ⟨[(((20:ℚ) : WithTop ℚ), 1, none)], [], 4⟩⟩ =
    Except.error GraphErr.indexErrorQueueEmpty := by
  have dq : MinPQ.dequeue_min ⟨[(((20:ℚ) : WithTop ℚ), 1, none)], [], 4⟩ =
      Except.error GraphErr.indexErrorQueueEmpty := rfl
  simp only [dijkstraStep, dq, ebind_err]

/-- The whole embedded construction on `exGraph2`: both `ValueError` guards
pass, and the main loop crashes with the stale-heap `IndexError` on its
fourth iteration. -/
theorem dijEx2_construct :
    dijkstraConstruct exGraph2 0 = Except.error GraphErr.indexErrorQueueEmpty := by
  have hv : ¬ ¬ GraphAdapter.has_vertex exGraph2 0 := by decide
  have hw : (exGraph2.edges.any fun e => decide (e.weight < 0)) = false := rfl
  have L0 : lookupIdx exGraph2 0 = Except.ok 0 := rfl
  simp only [dijkstraConstruct, if_neg hv, hw, Bool.false_eq_true, if_false,
    L0, ebind_ok]
  show dijkstraLoop exGraph2 (3 + 1)
      ⟨[((0:ℚ) : WithTop ℚ), ⊤, ⊤], [-1, -1, -1], ⟨[(((0:ℚ) : WithTop ℚ), 0, some 0)], [(0, 0)], 1⟩⟩ = Except.error GraphErr.indexErrorQueueEmpty
  rw [dijkstraLoop_succ, if_neg (by decide), dijEx2_step1, ebind_ok]
  show dijkstraLoop exGraph2 (2 + 1)
      ⟨[((0:ℚ) : WithTop ℚ), ((20:ℚ) : WithTop ℚ), ((2:ℚ) : WithTop ℚ)], [-1, 0, 0], ⟨[(((20:ℚ) : WithTop ℚ), 1, some 1), (((2:ℚ) : WithTop ℚ), 2, some 2)], [(1, 1), (2, 2)], 3⟩⟩ = Except.error GraphErr.indexErrorQueueEmpty
  rw [dijkstraLoop_succ, if_neg (by decide), dijEx2_step2, ebind_ok]
  show dijkstraLoop exGraph2 (1 + 1)
      ⟨[((0:ℚ) : WithTop ℚ), ((5:ℚ) : WithTop ℚ), ((2:ℚ) : WithTop ℚ)], [-1, 2, 0], ⟨[(((20:ℚ) : WithTop ℚ), 1, none), (((5:ℚ) : WithTop ℚ), 3, some 1)], [(1, 3)], 4⟩⟩ = Except.error GraphErr.indexErrorQueueEmpty
  rw [dijkstraLoop_succ, if_neg (by decide), dijEx2_step3, ebind_ok]
  show dijkstraLoop exGraph2 (0 + 1)
      ⟨[((0:ℚ) : WithTop ℚ), ((5:ℚ) : WithTop ℚ), ((2:ℚ) : WithTop ℚ)], [-1, 2, 0], ⟨[(((20:ℚ) : WithTop ℚ), 1, none)], [], 4⟩⟩ = Except.error GraphErr.indexErrorQueueEmpty
  rw [dijkstraLoop_succ, if_neg (by decide), dijEx2_step4, ebind_err]

/-- C3: refuted (code bug).  The claim promises correct `distance_to` /
`shortest_path_to` results for every graph with non-negative weights and a
valid source.  `exGraph1` is such a graph (source 0 present, weights 10, 1, 1),
yet the embedded construction terminates with the stale-heap `IndexError`
raised by `dequeue_min`: `update_priority` leaves an invalidated cell in the
heap, `is_empty` counts it, and the final `dequeue_min` call pops it and
underflows.  Construction never completes, so no distance or path is
produced at all (let alone the correct `distance_to(1) = 2`). -/
theorem claim3_dijkstra_crash :
    GraphAdapter.has_vertex exGraph1 0 ∧
    (exGraph1.edges.all fun e => decide (0 ≤ e.weight)) = true ∧
    dijkstraConstruct exGraph1 0 = Except.error GraphErr.indexErrorQueueEmpty :=
  ⟨by decide, rfl, dijEx1_construct⟩

/-- C8: the provable direction.  If the source vertex is missing the
constructor raises `ValueError("The source vertex doesn't exist...")`; if the
source exists and some edge weight is negative it raises
`ValueError("Negative edge weight detected")`.  In either case the
construction is an `Except.error`, so no shortest-path result is produced.
(The converse direction of the claim is refuted by
the separate counterexample: a well-formed graph can also fail, with an
`IndexError`.) -/
theorem claim8_constructor_guards (g : GraphAdapter) (source : ℤ) :
    (¬ g.has_vertex source →
      dijkstraConstruct g source = Except.error GraphErr.sourceMissing) ∧
    (g.has_vertex source → (∃ e ∈ g.edges, e.weight < 0) →
      dijkstraConstruct g source = Except.error GraphErr.negativeWeight) := by
  constructor
  · intro h
    simp only [dijkstraConstruct, if_pos h]
  · intro h hneg
    have hb : (g.edges.any fun e => decide (e.weight < 0)) = true := by
      rw [List.any_eq_true]
      obtain ⟨e, he, hlt⟩ := hneg
      exact ⟨e, he, by simpa using hlt⟩
    simp only [dijkstraConstruct, if_neg (not_not_intro h), hb, if_true]

/-- Witness for C8: on the one-vertex graph with the negative self-loop,
source 7 is rejected as missing, and source 5 trips the negative-weight
guard. -/
theorem claim8_constructor_guards_witness :
    dijkstraConstruct ⟨[5], [⟨5, 5, -1⟩]⟩ 7 = Except.error GraphErr.sourceMissing ∧
    dijkstraConstruct ⟨[5], [⟨5, 5, -1⟩]⟩ 5 = Except.error GraphErr.negativeWeight :=
  ⟨(claim8_constructor_guards ⟨[5], [⟨5, 5, -1⟩]⟩ 7).1 (by decide),
   (claim8_constructor_guards ⟨[5], [⟨5, 5, -1⟩]⟩ 5).2 (by decide)
     ⟨⟨5, 5, -1⟩, by decide, by decide⟩⟩

/-- Counterexample for C8's "only if" direction: `exGraph2` contains its
source 0 and every weight is non-negative (20, 2, 3), yet the constructor
still raises — the stale-heap `IndexError`, not a `ValueError`.  So "raises
an error" is not equivalent to "source missing or negative weight". -/
theorem claim8_counterexample :
    GraphAdapter.has_vertex exGraph2 0 ∧
    (exGraph2.edges.all fun e => decide (0 ≤ e.weight)) = true ∧
    dijkstraConstruct exGraph2 0 = Except.error GraphErr.indexErrorQueueEmpty :=
  ⟨by decide, rfl, dijEx2_construct⟩


/-! ### Agglomerative clustering (`planning_api/geometry/clustering.py`)

Embedding notes.  `MultiClusters` wraps a Python `set`; its iteration order
is arbitrary but fixed, and is modelled as list order.  `Cluster` objects
are compared by identity in the set and by `id` in `ClusterPair.__eq__`;
cluster ids are unique in every reachable state, so both are modelled by
value with id-based pair equality.  The `DissimilarityMatrix` dict is
modelled as an association list; its keys stay pairwise distinct under the
unordered pair equality (a dict cannot hold two equal keys), so `del` /
`pop` — which remove the unique matching key — are modelled by filtering out
every matching entry.  The numpy `distance_matrix` is a function of the two
indices; `float('inf')` from the failed pops is `⊤` in `WithTop ℚ`. -/

namespace Agglo

/-- Embedding of `Cluster`: its id, its `children` id list, the running
`centroid_sum` and the `diameter` recorded at the merge. -/
structure Cluster where
  id : ℕ
  children : List ℕ
  centroid_sum : ℚ × ℚ × ℚ
  diameter : ℚ
deriving DecidableEq, Repr

/-- An entry key of the dissimilarity matrix (`ClusterPair`). -/
abbrev CPair := Cluster × Cluster

/-- Embedding of `ClusterPair.__eq__`: unordered comparison by cluster ids. -/
def pairEqv (p q : CPair) : Prop :=
  (p.1.id = q.1.id ∧ p.2.id = q.2.id) ∨ (p.1.id = q.2.id ∧ p.2.id = q.1.id)

instance (p q : CPair) : Decidable (pairEqv p q) :=
  inferInstanceAs (Decidable (_ ∨ _))

/-- The `DissimilarityMatrix._distance_matrix` dict: insertion-ordered
pair/distance entries. -/
abbrev DMatrix := List (CPair × ℚ)

/-- Embedding of `DissimilarityMatrix.get_closest_cluster_pair` (without the
empty-matrix `ValueError`, which the loop guard makes unreachable): Python's
`min(..., key=...)` returns the first entry of minimal distance. -/
def get_closest_cluster_pair : DMatrix → Option (CPair × ℚ)
  | [] => none
  | e :: es => some (es.foldl (fun best x => if x.2 < best.2 then x else best) e)

/-- Embedding of `self._distance_matrix.pop(pair, float('inf'))`: the stored
distance (or `⊤`) together with the matrix without that key. -/
def dpop (m : DMatrix) (k : CPair) : WithTop ℚ × DMatrix :=
  match m.find? fun e => decide (pairEqv e.1 k) with
  | some e => ((e.2 : WithTop ℚ), m.filter fun e => ! decide (pairEqv e.1 k))
  | none => (⊤, m)

/-- The merged `Cluster` built by `update_matrix`: fresh id, concatenated
children, summed centroids, the merge distance as diameter. -/
def mergedCluster (idx : ℕ) (c1 c2 : Cluster) (dist : ℚ) : Cluster :=
  ⟨idx, c1.children ++ c2.children,
    (c1.centroid_sum.1 + c2.centroid_sum.1,
     c1.centroid_sum.2.1 + c2.centroid_sum.2.1,
     c1.centroid_sum.2.2 + c2.centroid_sum.2.2), dist⟩

/-- Body of the complete-linkage loop of `update_matrix`, for one remaining
cluster `c`: pop the pairs of `c` with both parents, and when their `max` is
finite and within the diameter record the pair of `c` with the merged
cluster.  The state is the shrinking matrix and the list of new entries. -/
def linkStep (diameter : ℚ) (p : CPair) (merged : Cluster)
    (acc : DMatrix × DMatrix) (c : Cluster) : DMatrix × DMatrix :=
  let r1 := dpop acc.1 (c, p.1)
  let r2 := dpop r1.2 (c, p.2)
  let cd := max r1.1 r2.1
  if cd ≠ ⊤ ∧ cd ≤ (diameter : WithTop ℚ) then
    (r2.2, acc.2 ++ [((c, merged), cd.untop' 0)])
  else (r2.2, acc.2)

/-- Embedding of `DissimilarityMatrix.update_matrix` (continued): delete the
merged pair's key, drop both parents from the cluster set, run the
complete-linkage loop over the remaining clusters, and add the merged
cluster; new dict entries go to the end of the insertion order. -/
def update_matrix (diameter : ℚ) (p : CPair) (dist : ℚ) (idx : ℕ)
    (clusters : List Cluster) (m : DMatrix) : List Cluster × DMatrix :=
  let merged := mergedCluster idx p.1 p.2 dist
  let m0 : DMatrix := m.filter fun e => ! decide (pairEqv e.1 p)
  let rest := clusters.filter fun c =>
    decide (c.id ≠ p.1.id) && decide (c.id ≠ p.2.id)
  let folded := rest.foldl (linkStep diameter p merged) (m0, [])
  (rest ++ [merged], folded.1 ++ folded.2)

/-- Embedding of `AgglomerativeClustering._build_hierarchical_clustering`.
The fuel only bounds the `while` loop structurally: every merge removes at
least one matrix entry net (the merged pair's own key, and each re-inserted
entry consumes at least one popped one), so the initial entry count is
always enough fuel; and the partition theorem below holds for the state
reached with any fuel. -/
def build_loop (diameter : ℚ) : ℕ → ℕ → List Cluster × DMatrix →
    List Cluster × DMatrix
  | 0, _, st => st
  | fuel + 1, idx, st =>
      match get_closest_cluster_pair st.2 with
      | none => st
      | some (p, dist) =>
          if dist < diameter then
            build_loop diameter fuel (idx + 1)
              (update_matrix diameter p dist idx st.1 st.2)
          else st

/-- Inner loop of the `DissimilarityMatrix` constructor: pairs of cluster
`i` (`ci`) with clusters `j = i+1, i+2, ...`, kept when the distance fits
the diameter. -/
def innerPairs (d : ℕ → ℕ → ℚ) (diam : ℚ) (i : ℕ) (ci : Cluster) :
    ℕ → List Cluster → DMatrix
  | _, [] => []
  | j, cj :: rest =>
      (if d i j ≤ diam then [((ci, cj), d i j)] else []) ++
        innerPairs d diam i ci (j + 1) rest

/-- Outer loop of the `DissimilarityMatrix` constructor. -/
def initMatrix (d : ℕ → ℕ → ℚ) (diam : ℚ) : ℕ → List Cluster → DMatrix
  | _, [] => []
  | i, c :: rest => innerPairs d diam i c (i + 1) rest ++ initMatrix d diam (i + 1) rest

/-- `for i in range(singleton_count): Cluster(i, *coordinates[i])`, from
index `k`. -/
def mkSingletonsFrom : ℕ → List (ℚ × ℚ × ℚ) → List Cluster
  | _, [] => []
  | i, p :: rest => ⟨i, [i], p, 0⟩ :: mkSingletonsFrom (i + 1) rest

/-- Embedding of `AgglomerativeClustering.run`: singleton clusters, the
dissimilarity matrix over all index pairs, then the merge loop starting
fresh ids at the singleton count. -/
def run (d : ℕ → ℕ → ℚ) (diameter : ℚ) (coords : List (ℚ × ℚ × ℚ)) :
    List Cluster :=
  let singles := mkSingletonsFrom 0 coords
  let m := initMatrix d diameter 0 singles
  (build_loop diameter m.length coords.length (singles, m)).1

/-- The concatenation of all `children` lists of a cluster collection. -/
def childrenOf : List Cluster → List ℕ
  | [] => []
  | c :: rest => c.children ++ childrenOf rest

/-- The ids of a cluster collection. -/
def idsOf (l : List Cluster) : List ℕ := l.map Cluster.id

/-- The state invariant of the merge loop: the children lists partition
`range n`, cluster ids are distinct and below the next fresh id, and every
matrix entry joins two distinct live clusters. -/
def Inv (n idx : ℕ) (st : List Cluster × DMatrix) : Prop :=
  (childrenOf st.1).Perm (List.range n) ∧
  (idsOf st.1).Nodup ∧
  (∀ c ∈ st.1, c.id < idx) ∧
  (∀ e ∈ st.2, e.1.1 ∈ st.1 ∧ e.1.2 ∈ st.1 ∧ e.1.1.id ≠ e.1.2.id)

end Agglo


namespace Agglo

theorem pickMin_mem (es : List (CPair × ℚ)) :
    ∀ b, es.foldl (fun best x => if x.2 < best.2 then x else best) b ∈ b :: es := by
  induction es with
  | nil => intro b; simp [List.foldl]
  | cons e es ih =>
      intro b
      simp only [List.foldl]
      rcases List.mem_cons.mp (ih (if e.2 < b.2 then e else b)) with h | h
      · rw [h]
        split
        · exact List.mem_cons_of_mem _ (List.mem_cons_self _ _)
        · exact List.mem_cons_self _ _
      · exact List.mem_cons_of_mem _ (List.mem_cons_of_mem _ h)

theorem getClosest_mem {m : DMatrix} {e : CPair × ℚ}
    (h : get_closest_cluster_pair m = some e) : e ∈ m := by
  cases m with
  | nil => simp [get_closest_cluster_pair] at h
  | cons a es =>
      simp only [get_closest_cluster_pair, Option.some_inj] at h
      have := pickMin_mem es a
      rw [h] at this
      exact this

theorem id_inj {l : List Cluster} (hn : (idsOf l).Nodup) {a b : Cluster}
    (ha : a ∈ l) (hb : b ∈ l) (hid : a.id = b.id) : a = b := by
  induction l with
  | nil => cases ha
  | cons c rest ih =>
      have hn' : (idsOf rest).Nodup := by
        simpa [idsOf] using hn.of_cons
      have hcm : c.id ∉ idsOf rest := by
        have := hn
        simp only [idsOf, List.map_cons, List.nodup_cons] at this
        simpa [idsOf] using this.1
      rcases List.mem_cons.mp ha with ha | ha <;> rcases List.mem_cons.mp hb with hb | hb
      · rw [ha, hb]
      · exact absurd (by simpa [idsOf, ← ha, hid] using List.mem_map_of_mem Cluster.id hb) hcm
      · exact absurd (by simpa [idsOf, ← hb, ← hid] using List.mem_map_of_mem Cluster.id ha) hcm
      · exact ih hn' ha hb

theorem perm_cons_filter_ne {l : List Cluster} (hn : (idsOf l).Nodup)
    {a : Cluster} (ha : a ∈ l) :
    l.Perm (a :: l.filter fun c => decide (c.id ≠ a.id)) := by
  induction l with
  | nil => cases ha
  | cons c rest ih =>
      have hn' : (idsOf rest).Nodup := by simpa [idsOf] using hn.of_cons
      have hcm : c.id ∉ idsOf rest := by
        have := hn
        simp only [idsOf, List.map_cons, List.nodup_cons] at this
        simpa [idsOf] using this.1
      rcases List.mem_cons.mp ha with ha | ha
      · subst ha
        have hall : ∀ x ∈ rest, ¬ (x.id = a.id) := by
          intro x hx hxe
          exact hcm (by simpa [idsOf, ← hxe] using List.mem_map_of_mem Cluster.id hx)
        have hfil : ((a :: rest).filter fun c => decide (c.id ≠ a.id)) = rest := by
          simp only [List.filter_cons, decide_eq_true_eq]
          rw [if_neg (by simp)]
          exact List.filter_eq_self.mpr fun x hx => by simpa using hall x hx
        rw [hfil]
      · have hca : ¬ (c.id = a.id) := by
          intro hce
          exact hcm (by simpa [idsOf, ← hce] using List.mem_map_of_mem Cluster.id ha)
        have step : (c :: rest).filter (fun c => decide (c.id ≠ a.id)) =
            c :: rest.filter fun c => decide (c.id ≠ a.id) := by
          simp only [List.filter_cons, decide_eq_true_eq]
          rw [if_pos hca]
        rw [step]
        exact ((ih hn' ha).cons c).trans (List.Perm.swap a c _)

theorem childrenOf_append (l₁ l₂ : List Cluster) :
    childrenOf (l₁ ++ l₂) = childrenOf l₁ ++ childrenOf l₂ := by
  induction l₁ with
  | nil => simp [childrenOf]
  | cons c rest ih => simp [childrenOf, ih]

theorem childrenOf_perm {l₁ l₂ : List Cluster} (h : l₁.Perm l₂) :
    (childrenOf l₁).Perm (childrenOf l₂) := by
  induction h with
  | nil => exact List.Perm.refl _
  | cons x _ ih => exact (List.Perm.refl x.children).append ih
  | swap x y l =>
      rw [childrenOf, childrenOf, childrenOf, childrenOf, ← List.append_assoc,
        ← List.append_assoc]
      exact (List.perm_append_comm).append (List.Perm.refl _)
  | trans _ _ ih₁ ih₂ => exact ih₁.trans ih₂

theorem childrenOf_length (l : List Cluster) :
    (childrenOf l).length = (l.map fun c => c.children.length).sum := by
  induction l with
  | nil => simp [childrenOf]
  | cons c rest ih => simp [childrenOf, ih]

theorem count_childrenOf (i : ℕ) (l : List Cluster) :
    (childrenOf l).count i = (l.map fun c => c.children.count i).sum := by
  induction l with
  | nil => simp [childrenOf]
  | cons c rest ih => simp [childrenOf, List.count_append, ih]

end Agglo


namespace Agglo

theorem dpop_mem {m : DMatrix} {k : CPair} {e : CPair × ℚ}
    (h : e ∈ (dpop m k).2) : e ∈ m ∧ ¬ pairEqv e.1 k := by
  rw [dpop] at h
  split at h
  · next x hx =>
      refine ⟨List.mem_of_mem_filter h, ?_⟩
      have := List.of_mem_filter h
      simpa using this
  · next hx =>
      refine ⟨h, ?_⟩
      have := List.find?_eq_none.mp hx e h
      simpa using this

theorem linkStep_fst (diam : ℚ) (p : CPair) (merged : Cluster)
    (acc : DMatrix × DMatrix) (c : Cluster) :
    (linkStep diam p merged acc c).1 = (dpop (dpop acc.1 (c, p.1)).2 (c, p.2)).2 := by
  rw [linkStep]
  split <;> rfl

theorem linkStep_snd (diam : ℚ) (p : CPair) (merged : Cluster)
    (acc : DMatrix × DMatrix) (c : Cluster) {e : CPair × ℚ}
    (h : e ∈ (linkStep diam p merged acc c).2) :
    e ∈ acc.2 ∨ e.1 = (c, merged) := by
  rw [linkStep] at h
  split at h
  · rcases List.mem_append.mp h with h | h
    · exact Or.inl h
    · right
      have : e = ((c, merged), _) := List.mem_singleton.mp h
      rw [this]
  · exact Or.inl h

theorem linkFold_fst (diam : ℚ) (p : CPair) (merged : Cluster) :
    ∀ (cs : List Cluster) (acc : DMatrix × DMatrix) (e : CPair × ℚ),
      e ∈ (cs.foldl (linkStep diam p merged) acc).1 →
      e ∈ acc.1 ∧ ∀ c ∈ cs, ¬ pairEqv e.1 (c, p.1) ∧ ¬ pairEqv e.1 (c, p.2)
  | [], acc, e, h => ⟨h, by simp⟩
  | c :: cs, acc, e, h => by
      have ih := linkFold_fst diam p merged cs (linkStep diam p merged acc c) e h
      have h1 : e ∈ (linkStep diam p merged acc c).1 := ih.1
      rw [linkStep_fst] at h1
      have h2 := dpop_mem h1
      have h3 := dpop_mem h2.1
      refine ⟨h3.1, ?_⟩
      intro x hx
      rcases List.mem_cons.mp hx with hx | hx
      · subst hx
        exact ⟨h3.2, h2.2⟩
      · exact ih.2 x hx

theorem linkFold_snd (diam : ℚ) (p : CPair) (merged : Cluster) :
    ∀ (cs : List Cluster) (acc : DMatrix × DMatrix) (e : CPair × ℚ),
      e ∈ (cs.foldl (linkStep diam p merged) acc).2 →
      e ∈ acc.2 ∨ ∃ c ∈ cs, e.1 = (c, merged)
  | [], acc, e, h => Or.inl h
  | c :: cs, acc, e, h => by
      have ih := linkFold_snd diam p merged cs (linkStep diam p merged acc c) e h
      rcases ih with ih | ih
      · rcases linkStep_snd diam p merged acc c ih with h' | h'
        · exact Or.inl h'
        · exact Or.inr ⟨c, List.mem_cons_self c cs, h'⟩
      · rcases ih with ⟨x, hx, he⟩
        exact Or.inr ⟨x, List.mem_cons_of_mem c hx, he⟩

end Agglo


namespace Agglo

theorem survivor_fst {clusters : List Cluster} {c1 c2 : Cluster}
    {a b : Cluster} (hac : a ∈ clusters) (hab : a.id ≠ b.id)
    (hnp : ¬ pairEqv (a, b) (c1, c2))
    (hpops : ∀ c ∈ clusters.filter
        (fun c => decide (c.id ≠ c1.id) && decide (c.id ≠ c2.id)),
      ¬ pairEqv (a, b) (c, c1) ∧ ¬ pairEqv (a, b) (c, c2))
    (hbr : b ∈ clusters →
      b ∈ clusters.filter
        (fun c => decide (c.id ≠ c1.id) && decide (c.id ≠ c2.id)) ∨
      b.id = c1.id ∨ b.id = c2.id)
    (hbc : b ∈ clusters) :
    a ∈ clusters.filter
      (fun c => decide (c.id ≠ c1.id) && decide (c.id ≠ c2.id)) := by
  by_cases h1 : a.id = c1.id
  · exfalso
    rcases hbr hbc with hb | hb | hb
    · exact (hpops b hb).1 (Or.inr ⟨h1, rfl⟩)
    · exact hab (h1.trans hb.symm)
    · exact hnp (Or.inl ⟨h1, hb⟩)
  · by_cases h2 : a.id = c2.id
    · exfalso
      rcases hbr hbc with hb | hb | hb
      · exact (hpops b hb).2 (Or.inr ⟨h2, rfl⟩)
      · exact hnp (Or.inr ⟨h2, hb⟩)
      · exact hab (h2.trans hb.symm)
    · exact List.mem_filter.mpr ⟨hac, by simp [h1, h2]⟩

theorem mem_rest_or_parent {clusters : List Cluster} {c1 c2 b : Cluster}
    (hbc : b ∈ clusters) :
    b ∈ clusters.filter
      (fun c => decide (c.id ≠ c1.id) && decide (c.id ≠ c2.id)) ∨
    b.id = c1.id ∨ b.id = c2.id := by
  by_cases h1 : b.id = c1.id
  · exact Or.inr (Or.inl h1)
  · by_cases h2 : b.id = c2.id
    · exact Or.inr (Or.inr h2)
    · exact Or.inl (List.mem_filter.mpr ⟨hbc, by simp [h1, h2]⟩)

theorem pairEqv_swap {x y k : CPair} (h : pairEqv (x.1, x.2) k → False)
    (hy : y = (x.2, x.1)) : ¬ pairEqv y k := by
  subst hy
  intro hk
  rcases hk with ⟨u, v⟩ | ⟨u, v⟩
  · exact h (Or.inr ⟨v, u⟩)
  · exact h (Or.inl ⟨v, u⟩)

end Agglo


namespace Agglo

theorem update_preserves {n idx : ℕ} {diam : ℚ} {clusters : List Cluster}
    {m : DMatrix} (hInv : Inv n idx (clusters, m)) {p : CPair} {dist : ℚ}
    (hp : (p, dist) ∈ m) :
    Inv n (idx + 1) (update_matrix diam p dist idx clusters m) := by
  obtain ⟨hperm, hnodup, hlt, hmat⟩ := hInv
  obtain ⟨hc1, hc2, hne⟩ := hmat (p, dist) hp
  show (childrenOf ((clusters.filter fun c =>
        decide (c.id ≠ p.1.id) && decide (c.id ≠ p.2.id)) ++
      [mergedCluster idx p.1 p.2 dist])).Perm (List.range n) ∧
    (idsOf ((clusters.filter fun c =>
        decide (c.id ≠ p.1.id) && decide (c.id ≠ p.2.id)) ++
      [mergedCluster idx p.1 p.2 dist])).Nodup ∧
    (∀ c ∈ (clusters.filter fun c =>
        decide (c.id ≠ p.1.id) && decide (c.id ≠ p.2.id)) ++
      [mergedCluster idx p.1 p.2 dist], c.id < idx + 1) ∧
    (∀ e ∈ ((clusters.filter fun c =>
          decide (c.id ≠ p.1.id) && decide (c.id ≠ p.2.id)).foldl
        (linkStep diam p (mergedCluster idx p.1 p.2 dist))
        (m.filter fun e => ! decide (pairEqv e.1 p), [])).1 ++
      ((clusters.filter fun c =>
          decide (c.id ≠ p.1.id) && decide (c.id ≠ p.2.id)).foldl
        (linkStep diam p (mergedCluster idx p.1 p.2 dist))
        (m.filter fun e => ! decide (pairEqv e.1 p), [])).2,
      e.1.1 ∈ (clusters.filter fun c =>
          decide (c.id ≠ p.1.id) && decide (c.id ≠ p.2.id)) ++
        [mergedCluster idx p.1 p.2 dist] ∧
      e.1.2 ∈ (clusters.filter fun c =>
          decide (c.id ≠ p.1.id) && decide (c.id ≠ p.2.id)) ++
        [mergedCluster idx p.1 p.2 dist] ∧
      e.1.1.id ≠ e.1.2.id)
  set MG := mergedCluster idx p.1 p.2 dist with hMG
  set R := clusters.filter (fun c =>
    decide (c.id ≠ p.1.id) && decide (c.id ≠ p.2.id)) with hR
  set M0 := m.filter (fun e => ! decide (pairEqv e.1 p)) with hM0
  have hsubR : ∀ {c : Cluster}, c ∈ R → c ∈ clusters :=
    fun h => List.mem_of_mem_filter h
  have hRn : (idsOf R).Nodup := by
    have hs : R.Sublist clusters := by rw [hR]; exact List.filter_sublist _
    exact hnodup.sublist (hs.map Cluster.id)
  have h1 : clusters.Perm
      (p.1 :: clusters.filter fun c => decide (c.id ≠ p.1.id)) :=
    perm_cons_filter_ne hnodup hc1
  have hl1n : (idsOf (clusters.filter fun c =>
      decide (c.id ≠ p.1.id))).Nodup :=
    hnodup.sublist ((List.filter_sublist _).map _)
  have hc2l1 : p.2 ∈ clusters.filter (fun c => decide (c.id ≠ p.1.id)) :=
    List.mem_filter.mpr ⟨hc2, by simp [Ne.symm hne]⟩
  have h2 := perm_cons_filter_ne hl1n hc2l1
  have hff : ((clusters.filter fun c => decide (c.id ≠ p.1.id)).filter
      fun c => decide (c.id ≠ p.2.id)) = R := by
    rw [hR, List.filter_filter]
    exact List.filter_congr fun x _ => Bool.and_comm _ _
  have hcc : clusters.Perm (p.1 :: p.2 :: R) := by
    refine h1.trans (List.Perm.cons p.1 ?_)
    rw [← hff]
    exact h2
  have hMGch : MG.children = p.1.children ++ p.2.children := by rw [hMG]; rfl
  have hMGid : MG.id = idx := by rw [hMG]; rfl
  refine ⟨?_, ?_, ?_, ?_⟩
  · have e1 : childrenOf (R ++ [MG]) =
        childrenOf R ++ (p.1.children ++ p.2.children) := by
      rw [childrenOf_append, childrenOf, childrenOf, hMGch, List.append_nil]
    have e2 : childrenOf (p.1 :: p.2 :: R) =
        p.1.children ++ (p.2.children ++ childrenOf R) := by
      rw [childrenOf, childrenOf]
    have hmid : (childrenOf R ++ (p.1.children ++ p.2.children)).Perm
        (childrenOf clusters) := by
      refine (List.perm_append_comm).trans ?_
      rw [List.append_assoc, ← e2]
      exact (childrenOf_perm hcc).symm
    rw [e1]
    exact hmid.trans hperm
  · have hidx : idx ∉ idsOf R := by
      intro hmem
      rcases List.mem_map.mp hmem with ⟨c, hcR, hcid⟩
      exact absurd (hcid ▸ hlt c (hsubR hcR)) (lt_irrefl idx)
    rw [idsOf, List.map_append, List.nodup_append]
    refine ⟨hRn, List.nodup_singleton _, ?_⟩
    intro a haR hamg
    have : a = MG.id := by simpa using hamg
    rw [this, hMGid] at haR
    exact hidx haR
  · intro c hc
    rcases List.mem_append.mp hc with hc | hc
    · exact Nat.lt_succ_of_lt (hlt c (hsubR hc))
    · have : c = MG := by simpa using hc
      rw [this, hMGid]
      exact Nat.lt_succ_self idx
  · intro e he
    rcases List.mem_append.mp he with he | he
    · obtain ⟨heM0, hkeys⟩ := linkFold_fst diam p MG R (M0, []) e he
      have heM : e ∈ m := List.mem_of_mem_filter heM0
      have hnp : ¬ pairEqv e.1 p := by
        have := List.of_mem_filter heM0
        simpa using this
      obtain ⟨ha, hb, hab⟩ := hmat e heM
      have hafst : e.1.1 ∈ R :=
        survivor_fst ha hab hnp hkeys
          (fun hbc => mem_rest_or_parent hbc) hb
      have hkeys' : ∀ c ∈ R,
          ¬ pairEqv (e.1.2, e.1.1) (c, p.1) ∧ ¬ pairEqv (e.1.2, e.1.1) (c, p.2) :=
        fun c hc => ⟨pairEqv_swap (hkeys c hc).1 rfl, pairEqv_swap (hkeys c hc).2 rfl⟩
      have hbsnd : e.1.2 ∈ R :=
        survivor_fst hb (Ne.symm hab) (pairEqv_swap hnp rfl) hkeys'
          (fun hac => mem_rest_or_parent hac) ha
      exact ⟨List.mem_append.mpr (Or.inl hafst),
        List.mem_append.mpr (Or.inl hbsnd), hab⟩
    · rcases linkFold_snd diam p MG R (M0, []) e he with h0 | ⟨c, hcR, hec⟩
      · cases h0
      · have h1 : e.1.1 = c := by rw [hec]
        have h2 : e.1.2 = MG := by rw [hec]
        refine ⟨?_, ?_, ?_⟩
        · rw [h1]; exact List.mem_append.mpr (Or.inl hcR)
        · rw [h2]; exact List.mem_append.mpr (Or.inr (List.mem_singleton.mpr rfl))
        · rw [h1, h2, hMGid]
          exact Nat.ne_of_lt (hlt c (hsubR hcR))

theorem build_loop_preserves (diam : ℚ) (n : ℕ) :
    ∀ (fuel idx : ℕ) (st : List Cluster × DMatrix), Inv n idx st →
      ∃ idx', Inv n idx' (build_loop diam fuel idx st)
  | 0, idx, st, h => ⟨idx, h⟩
  | fuel + 1, idx, st, h => by
      cases hgc : get_closest_cluster_pair st.2 with
      | none => simpa [build_loop, hgc] using ⟨idx, h⟩
      | some pd =>
          obtain ⟨p, dist⟩ := pd
          simp only [build_loop, hgc]
          by_cases hd : dist < diam
          · rw [if_pos hd]
            have hmem : (p, dist) ∈ st.2 := getClosest_mem hgc
            have h' : Inv n (idx + 1)
                (update_matrix diam p dist idx st.1 st.2) :=
              update_preserves h hmem
            exact build_loop_preserves diam n fuel (idx + 1) _ h'
          · rw [if_neg hd]
            exact ⟨idx, h⟩

end Agglo


namespace Agglo

theorem mkSingletonsFrom_children :
    ∀ (k : ℕ) (l : List (ℚ × ℚ × ℚ)),
      childrenOf (mkSingletonsFrom k l) = List.range' k l.length
  | _, [] => rfl
  | k, p :: rest => by
      rw [mkSingletonsFrom, childrenOf, mkSingletonsFrom_children (k + 1) rest,
        List.length_cons, List.range'_succ]
      rfl

theorem mkSingletonsFrom_ids :
    ∀ (k : ℕ) (l : List (ℚ × ℚ × ℚ)),
      idsOf (mkSingletonsFrom k l) = List.range' k l.length
  | _, [] => rfl
  | k, p :: rest => by
      rw [mkSingletonsFrom, idsOf, List.map_cons, List.length_cons,
        List.range'_succ]
      have := mkSingletonsFrom_ids (k + 1) rest
      rw [idsOf] at this
      rw [this]

theorem innerPairs_mem {d : ℕ → ℕ → ℚ} {diam : ℚ} {i : ℕ} {ci : Cluster} :
    ∀ {j : ℕ} {l : List Cluster} {e : CPair × ℚ},
      e ∈ innerPairs d diam i ci j l → e.1.1 = ci ∧ e.1.2 ∈ l := by
  intro j l
  induction l generalizing j with
  | nil => intro e he; cases he
  | cons c rest ih =>
      intro e he
      rw [innerPairs] at he
      rcases List.mem_append.mp he with he | he
      · split at he
        · have : e = ((ci, c), d i j) := List.mem_singleton.mp he
          rw [this]
          exact ⟨rfl, List.mem_cons_self c rest⟩
        · cases he
      · obtain ⟨h1, h2⟩ := ih he
        exact ⟨h1, List.mem_cons_of_mem c h2⟩

theorem initMatrix_valid {d : ℕ → ℕ → ℚ} {diam : ℚ} :
    ∀ {i : ℕ} {l : List Cluster}, (idsOf l).Nodup →
      ∀ e ∈ initMatrix d diam i l,
        e.1.1 ∈ l ∧ e.1.2 ∈ l ∧ e.1.1.id ≠ e.1.2.id := by
  intro i l
  induction l generalizing i with
  | nil => intro _ e he; cases he
  | cons c rest ih =>
      intro hn e he
      have hn' : (idsOf rest).Nodup := by simpa [idsOf] using hn.of_cons
      have hcm : c.id ∉ idsOf rest := by
        have := hn
        simp only [idsOf, List.map_cons, List.nodup_cons] at this
        simpa [idsOf] using this.1
      rw [initMatrix] at he
      rcases List.mem_append.mp he with he | he
      · obtain ⟨h1, h2⟩ := innerPairs_mem he
        refine ⟨by rw [h1]; exact List.mem_cons_self c rest,
          List.mem_cons_of_mem c h2, ?_⟩
        rw [h1]
        intro hce
        exact hcm (by simpa [idsOf, ← hce] using
          List.mem_map_of_mem Cluster.id h2)
      · obtain ⟨h1, h2, h3⟩ := ih hn' e he
        exact ⟨List.mem_cons_of_mem c h1, List.mem_cons_of_mem c h2, h3⟩

theorem countP_children_of_sum_zero :
    ∀ (l : List Cluster) (i : ℕ),
      (l.map fun c => c.children.count i).sum = 0 →
      (l.countP fun c => decide (i ∈ c.children)) = 0
  | [], _, _ => rfl
  | c :: rest, i, h => by
      rw [List.map_cons, List.sum_cons] at h
      have h1 : c.children.count i = 0 := by omega
      have h2 : (rest.map fun c => c.children.count i).sum = 0 := by omega
      rw [List.countP_cons]
      have hni : ¬ (i ∈ c.children) := by
        intro hmem
        have := List.count_pos_iff.mpr hmem
        omega
      rw [countP_children_of_sum_zero rest i h2]
      simp [hni]

theorem countP_children_of_sum_one :
    ∀ (l : List Cluster) (i : ℕ),
      (l.map fun c => c.children.count i).sum = 1 →
      (l.countP fun c => decide (i ∈ c.children)) = 1
  | [], _, h => by simp at h
  | c :: rest, i, h => by
      rw [List.map_cons, List.sum_cons] at h
      rw [List.countP_cons]
      by_cases hc : c.children.count i = 0
      · have h2 : (rest.map fun c => c.children.count i).sum = 1 := by omega
        have hni : ¬ (i ∈ c.children) := by
          intro hmem
          have := List.count_pos_iff.mpr hmem
          omega
        rw [countP_children_of_sum_one rest i h2]
        simp [hni]
      · have h2 : (rest.map fun c => c.children.count i).sum = 0 := by omega
        have hyi : i ∈ c.children := List.count_pos_iff.mp (Nat.pos_of_ne_zero hc)
        rw [countP_children_of_sum_zero rest i h2]
        simp [hyi]

end Agglo


namespace Agglo

/-- C4: confirmed.  For every distance function, diameter and (non-empty)
coordinate list, the clusters returned by `AgglomerativeClustering.run`
partition the input point ids `0, ..., n-1`: the concatenation of all
`children` lists is a permutation of `range n`, the children counts sum to
`n`, and every id lies in the children of exactly one returned cluster.
Each merge replaces two clusters by one holding the concatenation of their
children, so the partition is preserved through every `update_matrix`
call. -/
theorem claim4_clustering_partition (d : ℕ → ℕ → ℚ) (diameter : ℚ)
    (coords : List (ℚ × ℚ × ℚ)) (hne : 0 < coords.length) :
    (childrenOf (Agglo.run d diameter coords)).Perm
      (List.range coords.length) ∧
    ((Agglo.run d diameter coords).map fun c => c.children.length).sum =
      coords.length ∧
    ∀ i < coords.length,
      ((Agglo.run d diameter coords).countP fun c =>
        decide (i ∈ c.children)) = 1 := by
  have hids : (idsOf (mkSingletonsFrom 0 coords)).Nodup := by
    rw [mkSingletonsFrom_ids]
    exact List.nodup_range' _ _
  have hInv0 : Inv coords.length coords.length
      (mkSingletonsFrom 0 coords,
        initMatrix d diameter 0 (mkSingletonsFrom 0 coords)) := by
    refine ⟨?_, hids, ?_, ?_⟩
    · show (childrenOf (mkSingletonsFrom 0 coords)).Perm _
      rw [mkSingletonsFrom_children, ← List.range_eq_range']
    · intro c hc
      have hm : c.id ∈ idsOf (mkSingletonsFrom 0 coords) :=
        List.mem_map_of_mem Cluster.id hc
      rw [mkSingletonsFrom_ids] at hm
      have := List.mem_range'_1.mp hm
      omega
    · exact initMatrix_valid hids
  obtain ⟨idx', hP, hN, hLt, hM⟩ := build_loop_preserves diameter coords.length
    (initMatrix d diameter 0 (mkSingletonsFrom 0 coords)).length coords.length
    (mkSingletonsFrom 0 coords,
      initMatrix d diameter 0 (mkSingletonsFrom 0 coords)) hInv0
  have hrun : Agglo.run d diameter coords =
      (build_loop diameter
        (initMatrix d diameter 0 (mkSingletonsFrom 0 coords)).length
        coords.length
        (mkSingletonsFrom 0 coords,
          initMatrix d diameter 0 (mkSingletonsFrom 0 coords))).1 := rfl
  refine ⟨?_, ?_, ?_⟩
  · rw [hrun]
    exact hP
  · rw [hrun]
    have hlen := hP.length_eq
    rw [childrenOf_length] at hlen
    simpa using hlen
  · intro i hi
    rw [hrun]
    apply countP_children_of_sum_one
    rw [← count_childrenOf, hP.count_eq]
    exact List.count_eq_one_of_mem (List.nodup_range _) (List.mem_range.mpr hi)

/-- Witness for C4: two points, distance 5 apart, diameter 1 — no merge
happens and the two singleton clusters partition `{0, 1}`. -/
theorem claim4_clustering_partition_witness :
    0 < ([((0:ℚ), (0:ℚ), (0:ℚ)), ((3:ℚ), (0:ℚ), (0:ℚ))] :
      List (ℚ × ℚ × ℚ)).length ∧
    ((childrenOf (Agglo.run (fun _ _ => 5) 1
        [((0:ℚ), (0:ℚ), (0:ℚ)), ((3:ℚ), (0:ℚ), (0:ℚ))])).Perm
      (List.range ([((0:ℚ), (0:ℚ), (0:ℚ)), ((3:ℚ), (0:ℚ), (0:ℚ))] :
        List (ℚ × ℚ × ℚ)).length) ∧
    ((Agglo.run (fun _ _ => 5) 1
        [((0:ℚ), (0:ℚ), (0:ℚ)), ((3:ℚ), (0:ℚ), (0:ℚ))]).map fun c =>
      c.children.length).sum =
      ([((0:ℚ), (0:ℚ), (0:ℚ)), ((3:ℚ), (0:ℚ), (0:ℚ))] :
        List (ℚ × ℚ × ℚ)).length ∧
    ∀ i < ([((0:ℚ), (0:ℚ), (0:ℚ)), ((3:ℚ), (0:ℚ), (0:ℚ))] :
        List (ℚ × ℚ × ℚ)).length,
      ((Agglo.run (fun _ _ => 5) 1
          [((0:ℚ), (0:ℚ), (0:ℚ)), ((3:ℚ), (0:ℚ), (0:ℚ))]).countP fun c =>
        decide (i ∈ c.children)) = 1) :=
  ⟨by decide,
   claim4_clustering_partition (fun _ _ => 5) 1
     [((0:ℚ), (0:ℚ), (0:ℚ)), ((3:ℚ), (0:ℚ), (0:ℚ))] (by decide)⟩

end Agglo

end UrbanGen
